import Mathlib

set_option maxHeartbeats 1000000

/-!
Shallow embedding of the type-reference graph resolution and token-budgeted
prioritization engine of the opencode-type-inject repository.

Embedded source files:
* packages/core/lib/types.ts        (ExtractedTypeKind, ExtractedType)
* packages/core/lib/prioritizer.ts  (extractTypeReferences, estimateTokens,
                                     assignTiers, prioritizeTypes)
* packages/core/lib/checker.ts      (TypeExtractor.resolveImports,
                                     TypeExtractor.extract seeding)

TypeScript numbers that are always integers here are modelled as Nat where
they can never be negative and as Int where the configuration may pass a
non-positive value (tokenBudget).  JavaScript Set objects (insertion-ordered,
membership-deduplicated) are modelled as duplicate-free Lists built by
appending unseen elements.  JavaScript Map objects keyed by name, where a
later set overwrites an earlier one, are modelled by searching the reversed
entry list.
-/

/-- Kinds of extracted declarations (types.ts, ExtractedTypeKind): the TS
union "function" | "type" | "interface" | "enum" | "const" | "class".
The last one is spelled cls because class is a Lean keyword. -/
inductive ExtractedTypeKind where
  | function
  | type
  | interface
  | enum
  | const
  | cls
deriving DecidableEq, Repr

/-- One extracted declaration (types.ts, ExtractedType), restricted to the
fields the prioritizer reads: kind, name, signature, jsdoc, sourcePath.
Optional TS fields become Option. -/
structure ExtractedType where
  kind : ExtractedTypeKind
  name : String
  signature : String
  jsdoc : Option (List String) := none
  sourcePath : Option String := none
deriving DecidableEq, Repr

/-- The character class [a-zA-Z0-9] of the PascalCase regex in
extractTypeReferences (prioritizer.ts line 271). -/
def isAlnumAZ (c : Char) : Bool :=
  c.isUpper || c.isLower || c.isDigit

/-- JavaScript word character \w, i.e. [A-Za-z0-9_]: the class consulted by
the \b boundary assertions of that regex. -/
def isWordChar (c : Char) : Bool :=
  isAlnumAZ c || c == '_'

/-- The exec loop of extractTypeReferences (prioritizer.ts lines 271-281):
repeatedly run the regex \b([A-Z][a-zA-Z0-9]*)\b over the text and collect
the matched tokens in order.  prevWord records whether the character before
the current position is a word character (the state the \b assertion
consults; false at the start of the text).  A match attempt at an uppercase
character takes the maximal [a-zA-Z0-9] run; if the character after that run
is again a word character (necessarily an underscore), the trailing \b
fails, and every backtracked shorter match also fails because its end would
sit between two word characters, so the engine advances one position,
modelled by the recursive call on rest with prevWord set to true.
The first Nat argument is the remaining-input bound that makes the
recursion structural (every step of the source loop advances lastIndex, so
the input length bounds the iteration count); every call supplies at least
the length of the character list, which keeps the zero branch unreachable. -/
def execLoop : Nat → Bool → List Char → List String
  | 0, _, _ => []
  | fuel + 1, prevWord, cs =>
    match cs with
    | [] => []
    | c :: rest =>
      if !prevWord && c.isUpper then
        let tk := rest.takeWhile isAlnumAZ
        match rest.drop tk.length with
        | [] => [(c :: tk).asString]
        | d :: ds =>
          if isWordChar d then
            execLoop fuel true rest
          else
            (c :: tk).asString :: execLoop fuel true (d :: ds)
      else
        execLoop fuel (isWordChar c) rest

/-- The matched tokens of the whole text, in match order (with duplicates). -/
def regexMatches (s : String) : List String :=
  execLoop s.data.length false s.data

/-- The fixed deny-list of built-in / generic-utility names
(prioritizer.ts lines 242-269). -/
def builtins : List String :=
  ["String", "Number", "Boolean", "Object", "Array", "Function", "Promise",
   "Date", "Map", "Set", "WeakMap", "WeakSet", "RegExp", "Error", "Symbol",
   "BigInt", "Record", "Partial", "Required", "Readonly", "Pick", "Omit",
   "Exclude", "Extract", "NonNullable", "Parameters", "ReturnType",
   "InstanceType", "ThisType", "Uppercase", "Lowercase", "Capitalize",
   "Uncapitalize"]

/-- JavaScript Set.add on the insertion-ordered list model: append the
element if it is not already present. -/
def insertRef (refs : List String) (n : String) : List String :=
  if n ∈ refs then refs else refs ++ [n]

/-- extractTypeReferences (prioritizer.ts lines 236-284): collect every
regex match that is not in the deny-list into an insertion-ordered Set. -/
def extractTypeReferences (signature : String) : List String :=
  (regexMatches signature).foldl
    (fun refs n => if n ∈ builtins then refs else insertRef refs n) []

/-- estimateTokens (prioritizer.ts lines 292-305): character count of the
signature, plus the jsdoc lines joined by newlines when present, plus 10
characters of formatting overhead, divided by CHARS_PER_TOKEN = 4 and
rounded up (Math.ceil). -/
def estimateTokens (t : ExtractedType) : Nat :=
  let chars := t.signature.length +
    (match t.jsdoc with
     | some js => (String.intercalate "\n" js).length
     | none => 0) + 10
  (chars + 3) / 4

/-- The maximal runs of word characters of a text, in order: the tokens a
word-boundary-delimited regex can ever match.  Stated from the wording of
the specification (spec 4.1: match every capitalized identifier-like token);
used only to express what the scanner returns, and proved equivalent to the
exec-loop embedding of the source.
The Nat argument is the same remaining-input bound as in execLoop, supplied
as the list length by the wordRunsOf wrapper below. -/
def wordRuns : Nat → List Char → List (List Char)
  | 0, _ => []
  | fuel + 1, cs =>
    match cs with
    | [] => []
    | c :: rest =>
      if isWordChar c then
        (c :: rest.takeWhile isWordChar) ::
          wordRuns fuel (rest.drop (rest.takeWhile isWordChar).length)
      else
        wordRuns fuel rest

/-- wordRuns at its canonical fuel. -/
def wordRunsOf (cs : List Char) : List (List Char) :=
  wordRuns cs.length cs

/-- Whether a token matches the capture pattern [A-Z][a-zA-Z0-9]* in full. -/
def patMatch : List Char → Bool
  | [] => false
  | c :: cs => c.isUpper && cs.all isAlnumAZ

/-- Stated from the wording of claim C9 / spec 4.1: the maximal tokens of the
text that match [A-Z][A-Za-z0-9]* and are not in the deny-list. -/
def specMaximalTokens (s : String) : List String :=
  (((wordRunsOf s.data).filter patMatch).map List.asString).filter
    (fun n => decide (n ∉ builtins))

/-- Whether a declaration has kind "function". -/
def isFunctionKind (t : ExtractedType) : Bool :=
  match t.kind with
  | ExtractedTypeKind.function => true
  | _ => false

/-- JavaScript Map.has for the name-keyed typeMap built in assignTiers
(prioritizer.ts lines 142-146): some entry carries this name. -/
def mapHas (types : List ExtractedType) (n : String) : Bool :=
  types.any (fun t => t.name == n)

/-- JavaScript Map.get for that typeMap: the last entry with this name wins,
because a later Map.set overwrites an earlier one. -/
def mapGet (types : List ExtractedType) (n : String) : Option ExtractedType :=
  types.reverse.find? (fun t => t.name == n)

/-- Tier 1 (prioritizer.ts lines 148-150): all declarations of kind
"function", in input order. -/
def functionsOf (types : List ExtractedType) : List ExtractedType :=
  types.filter isFunctionKind

/-- The tier-2 name Set (prioritizer.ts lines 152-161): for each function in
order, each reference of its signature that names some entry and is not the
function itself, inserted in first-seen order. -/
def tier2Names (types : List ExtractedType) : List String :=
  (functionsOf types).foldl
    (fun acc f =>
      (extractTypeReferences f.signature).foldl
        (fun acc2 n =>
          if mapHas types n ∧ n ≠ f.name then insertRef acc2 n else acc2)
        acc)
    []

/-- Tier 2 (prioritizer.ts lines 163-169): the typeMap entry of each tier-2
name, kept when its kind is not "function". -/
def tier2Of (types : List ExtractedType) : List ExtractedType :=
  (tier2Names types).filterMap
    (fun n =>
      (mapGet types n).bind
        (fun t => if isFunctionKind t then none else some t))

/-- The tier-3 name Set (prioritizer.ts lines 171-180): references of tier-2
signatures that name an entry, are not already tier-2 names, and are not the
referencing declaration itself. -/
def tier3Names (types : List ExtractedType) : List String :=
  (tier2Of types).foldl
    (fun acc t =>
      (extractTypeReferences t.signature).foldl
        (fun acc2 n =>
          if mapHas types n ∧ n ∉ tier2Names types ∧ n ≠ t.name then
            insertRef acc2 n
          else acc2)
        acc)
    []

/-- Tier 3 (prioritizer.ts lines 182-188): the typeMap entry of each tier-3
name, kept when its kind is not "function". -/
def tier3Of (types : List ExtractedType) : List ExtractedType :=
  (tier3Names types).filterMap
    (fun n =>
      (mapGet types n).bind
        (fun t => if isFunctionKind t then none else some t))

/-- The names already claimed by tiers 1-3 (prioritizer.ts lines 190-195). -/
def assignedNames (types : List ExtractedType) : List String :=
  (functionsOf types).map (fun t => t.name) ++ tier2Names types ++
    tier3Names types

/-- JavaScript truthiness of the optional sourcePath string
(prioritizer.ts line 201: if (type.sourcePath)). -/
def truthySourcePath (t : ExtractedType) : Bool :=
  match t.sourcePath with
  | none => false
  | some s => !s.isEmpty

/-- Tier 4 (prioritizer.ts lines 197-207): unclaimed non-function
declarations without a (truthy) sourcePath, i.e. local ones. -/
def tier4Of (types : List ExtractedType) : List ExtractedType :=
  types.filter
    (fun t =>
      !(assignedNames types).contains t.name && !isFunctionKind t &&
        !truthySourcePath t)

/-- Tier 5 (prioritizer.ts lines 197-207): unclaimed non-function
declarations carrying a (truthy) sourcePath, i.e. imported ones. -/
def tier5Of (types : List ExtractedType) : List ExtractedType :=
  types.filter
    (fun t =>
      !(assignedNames types).contains t.name && !isFunctionKind t &&
        truthySourcePath t)

/-- The five tier buckets returned by assignTiers. -/
structure Tiers where
  tier1 : List ExtractedType
  tier2 : List ExtractedType
  tier3 : List ExtractedType
  tier4 : List ExtractedType
  tier5 : List ExtractedType
deriving DecidableEq, Repr

/-- assignTiers (prioritizer.ts lines 126-230), as the five buckets the
imperative loops accumulate.  The debug parameter only controls logging and
is dropped. -/
def assignTiers (types : List ExtractedType) : Tiers :=
  { tier1 := functionsOf types
    tier2 := tier2Of types
    tier3 := tier3Of types
    tier4 := tier4Of types
    tier5 := tier5Of types }

/-- The per-tier inclusion counters of prioritizeTypes. -/
structure TierCounts where
  tier1 : Nat
  tier2 : Nat
  tier3 : Nat
  tier4 : Nat
  tier5 : Nat
deriving DecidableEq, Repr

/-- The mutable state of the budget loop of prioritizeTypes
(prioritizer.ts lines 58-98): result, totalTokens, budgetExceeded,
includedNames, tierCounts. -/
structure PackState where
  result : List ExtractedType
  totalTokens : Nat
  budgetExceeded : Bool
  includedNames : List String
  counts : TierCounts
deriving DecidableEq, Repr

/-- One tier of the budget loop (prioritizer.ts lines 81-97): walk the
tier in order; skip names already included; for a non-mandatory tier skip
(and flag) any entry that would push totalTokens past tokenBudget;
otherwise append the entry, its name, its tokens and bump this tier's
counter.  tokenBudget is an Int because the configuration may pass a
non-positive number. -/
def packTier (tokenBudget : Int) (mustInclude : Bool)
    (bump : TierCounts → TierCounts) :
    List ExtractedType → PackState → PackState
  | [], st => st
  | t :: rest, st =>
    if t.name ∈ st.includedNames then
      packTier tokenBudget mustInclude bump rest st
    else
      let typeTokens := estimateTokens t
      if !mustInclude && decide (tokenBudget < ((st.totalTokens + typeTokens : Nat) : Int)) then
        packTier tokenBudget mustInclude bump rest
          { st with budgetExceeded := true }
      else
        packTier tokenBudget mustInclude bump rest
          { st with
            result := st.result ++ [t]
            includedNames := st.includedNames ++ [t.name]
            totalTokens := st.totalTokens + typeTokens
            counts := bump st.counts }

/-- The result record of prioritizeTypes (prioritizer.ts lines 25-41). -/
structure PrioritizeResult where
  types : List ExtractedType
  totalTokens : Nat
  budgetExceeded : Bool
  excludedCount : Nat
  tierCounts : TierCounts
deriving DecidableEq, Repr

/-- The zero-initialised loop state. -/
def initialPackState : PackState :=
  { result := []
    totalTokens := 0
    budgetExceeded := false
    includedNames := []
    counts := { tier1 := 0, tier2 := 0, tier3 := 0, tier4 := 0, tier5 := 0 } }

/-- prioritizeTypes (prioritizer.ts lines 47-121): assign tiers, then pack
tier 1 as mandatory and tiers 2-5 under the budget, in order.
excludedCount is total input minus total included; the subtraction cannot
underflow because at most one output entry is produced per input entry. -/
def prioritizeTypes (types : List ExtractedType) (tokenBudget : Int) :
    PrioritizeResult :=
  let tiers := assignTiers types
  let st1 := packTier tokenBudget true
    (fun c => { c with tier1 := c.tier1 + 1 }) tiers.tier1 initialPackState
  let st2 := packTier tokenBudget false
    (fun c => { c with tier2 := c.tier2 + 1 }) tiers.tier2 st1
  let st3 := packTier tokenBudget false
    (fun c => { c with tier3 := c.tier3 + 1 }) tiers.tier3 st2
  let st4 := packTier tokenBudget false
    (fun c => { c with tier4 := c.tier4 + 1 }) tiers.tier4 st3
  let st5 := packTier tokenBudget false
    (fun c => { c with tier5 := c.tier5 + 1 }) tiers.tier5 st4
  { types := st5.result
    totalTokens := st5.totalTokens
    budgetExceeded := st5.budgetExceeded
    excludedCount := types.length - st5.result.length
    tierCounts := st5.counts }

/-- A symbol record as produced by one extract-and-resolve pass
(checker.ts): name, plus the sourcePath / importDepth annotations that
resolveImports stamps onto imported symbols (checker.ts lines 999-1002) and
that stay absent on entry-file symbols.  Files are modelled by Nat
identities (the absolute paths ts-morph resolves). -/
structure RSym where
  name : String
  sourcePath : Option Nat := none
  importDepth : Option Nat := none
deriving DecidableEq, Repr

/-- The for-loop body of TypeExtractor.resolveImports (checker.ts lines
907-1022) over the remaining import edges of the current file, at recursion
depth depth.  g maps a file to the ordered targets of its (relative,
followed) import declarations; syms maps a file to the names of the symbols
extractTypesFromFile yields for it.  An already processed target is
skipped; otherwise the target is marked processed before anything else, its
symbols are collected tagged with sourcePath and importDepth = depth + 1,
and when depth + 1 < maxDepth the loop recurses into the target's own
edges.  deeper is the recursive call one level down. -/
def resolveEdges (g : Nat → List Nat) (syms : Nat → List String)
    (maxDepth : Nat)
    (deeper : Nat → List Nat → List Nat → List RSym × List Nat) :
    Nat → List Nat → List Nat → List RSym × List Nat
  | _, [], processed => ([], processed)
  | depth, t :: rest, processed =>
    if t ∈ processed then
      resolveEdges g syms maxDepth deeper depth rest processed
    else
      let processed1 := processed ++ [t]
      let here := (syms t).map
        (fun n => { name := n, sourcePath := some t,
                    importDepth := some (depth + 1) : RSym })
      let nd :=
        if depth + 1 < maxDepth then deeper (depth + 1) (g t) processed1
        else ([], processed1)
      let tl := resolveEdges g syms maxDepth deeper depth rest nd.2
      (here ++ nd.1 ++ tl.1, tl.2)

/-- resolveImports unrolled on explicit fuel.  Each nested call of the
source recursion strictly increases depth and only happens under the guard
depth + 1 < maxDepth, so a fuel of maxDepth - depth is always enough and
the zero-fuel branch is never taken on the calls the wrapper makes
(resolveFuelAdequate below proves the result does not depend on the fuel
once it is at least maxDepth - depth). -/
def resolveFuel (g : Nat → List Nat) (syms : Nat → List String)
    (maxDepth : Nat) :
    Nat → Nat → List Nat → List Nat → List RSym × List Nat
  | 0, _, _, processed => ([], processed)
  | fuel + 1, depth, edges, processed =>
    resolveEdges g syms maxDepth (resolveFuel g syms maxDepth fuel) depth
      edges processed

/-- TypeExtractor.resolveImports (checker.ts lines 895-1025): return
immediately when depth ≥ maxDepth (line 900), else walk the import edges of
file at this depth.  Returns the collected symbols and the updated
processed set. -/
def resolveImports (g : Nat → List Nat) (syms : Nat → List String)
    (maxDepth : Nat) (file : Nat) (depth : Nat) (processed : List Nat) :
    List RSym × List Nat :=
  if maxDepth ≤ depth then ([], processed)
  else resolveFuel g syms maxDepth (maxDepth - depth) depth (g file) processed

/-- One extract call with import following enabled (checker.ts lines
276-336): seed the processed set with the entry file itself, take the entry
file's own symbols untagged, then append resolveImports(entry, 0, seed). -/
def extractResolve (g : Nat → List Nat) (syms : Nat → List String)
    (maxDepth : Nat) (entry : Nat) : List RSym × List Nat :=
  let locals := (syms entry).map (fun n => { name := n : RSym })
  let r := resolveImports g syms maxDepth entry 0 [entry]
  (locals ++ r.1, r.2)

/-- There is an import chain of exactly n hops from a to b in graph g. -/
inductive ReachesIn (g : Nat → List Nat) : Nat → Nat → Nat → Prop where
  | refl (a : Nat) : ReachesIn g a a 0
  | step {a b c : Nat} {n : Nat} :
      ReachesIn g a b n → c ∈ g b → ReachesIn g a c (n + 1)

/-- One breadth step over the import graph: every file already reached plus
every direct import of such a file. -/
def stepReach (g : Nat → List Nat) (l : List Nat) : List Nat :=
  l ++ l.flatMap g

/-- The files reachable from entry within k import hops (with duplicates;
membership is what matters, see memReachList). -/
def reachList (g : Nat → List Nat) (entry : Nat) (k : Nat) : List Nat :=
  (stepReach g)^[k] [entry]

/-- The first entry of each name, in list order, given the names already
taken: what the mandatory tier-1 pass keeps once the includedNames check
has dropped every later same-named entry.  Used to state claims about the
packer's output. -/
def dedupByName : List ExtractedType → List String → List ExtractedType
  | [], _ => []
  | t :: rest, seen =>
    if t.name ∈ seen then dedupByName rest seen
    else t :: dedupByName rest (seen ++ [t.name])

/-- Scenario A (spec 8, claim C7): the entry-file function. -/
def c7f : ExtractedType :=
  { kind := ExtractedTypeKind.function, name := "f",
    signature := "function f(x: Widget): Gadget" }

/-- Scenario A: local type referenced by the function signature. -/
def c7w : ExtractedType :=
  { kind := ExtractedTypeKind.type, name := "Widget",
    signature := "type Widget = { a: string }" }

/-- Scenario A: local type referenced by the function signature and itself
referencing Part. -/
def c7g : ExtractedType :=
  { kind := ExtractedTypeKind.type, name := "Gadget",
    signature := "type Gadget = { p: Part }" }

/-- Scenario A: local type referenced only by Gadget. -/
def c7p : ExtractedType :=
  { kind := ExtractedTypeKind.type, name := "Part",
    signature := "type Part = { id: string }" }

/-- Scenario A: local type referenced by nothing. -/
def c7u : ExtractedType :=
  { kind := ExtractedTypeKind.type, name := "Unrelated",
    signature := "type Unrelated = { b: number }" }

/-- Scenario A: the five-symbol input list. -/
def scenarioA : List ExtractedType := [c7f, c7w, c7g, c7p, c7u]

/-- Three local types of estimated sizes 13, 6 and 6 tokens: the greedy
packer includes two of them at budget 12 but only one at budget 13
(claim C3). -/
def bigT : ExtractedType :=
  { kind := ExtractedTypeKind.type, name := "x",
    signature := String.mk (List.replicate 40 'a') }

/-- Size-6 companion of bigT. -/
def smallT1 : ExtractedType :=
  { kind := ExtractedTypeKind.type, name := "y",
    signature := String.mk (List.replicate 12 'a') }

/-- Second size-6 companion of bigT. -/
def smallT2 : ExtractedType :=
  { kind := ExtractedTypeKind.type, name := "z",
    signature := String.mk (List.replicate 12 'a') }

/-- The budget counterexample input list. -/
def budgetCex : List ExtractedType := [bigT, smallT1, smallT2]

/-- Two distinct functions sharing one name (claim C1). -/
def dupF1 : ExtractedType :=
  { kind := ExtractedTypeKind.function, name := "f",
    signature := "function f(x: number): number" }

/-- The later of the two same-named functions. -/
def dupF2 : ExtractedType :=
  { kind := ExtractedTypeKind.function, name := "f",
    signature := "function f(): string" }

/-- The duplicate-function input list. -/
def dupFunctions : List ExtractedType := [dupF1, dupF2]

/-- A local declaration (claim C10). -/
def dupLocal : ExtractedType :=
  { kind := ExtractedTypeKind.type, name := "Thing",
    signature := "type Thing = { a: string }" }

/-- An imported declaration with the same name as dupLocal. -/
def dupImported : ExtractedType :=
  { kind := ExtractedTypeKind.type, name := "Thing",
    signature := "type Thing = { b: number }",
    sourcePath := some "./other.ts" }

/-- The same-name local/imported input list. -/
def dupPair : List ExtractedType := [dupLocal, dupImported]

/-- A single function (claim C5): with budget 0 it is included and the
exceeded flag stays false because no tier-2..5 symbol is ever examined. -/
def soloFn : ExtractedType :=
  { kind := ExtractedTypeKind.function, name := "f",
    signature := "function f(): void" }

/-- The import graph of the C2 counterexample, files 0..6: file 0 imports
1 and 3; 1 imports 2; 2 imports 3 and 4; 3 imports 5 and 6.  File 3 is
first reached at the depth cutoff through the long chain 0-1-2-3, so its
imports 5 and 6 are never expanded even though the direct edge 0-3 would
have reached them within the depth bound. -/
def cexGraph : Nat → List Nat
  | 0 => [1, 3]
  | 1 => [2]
  | 2 => [3, 4]
  | 3 => [5, 6]
  | _ => []

/-- One named symbol per file for the resolver examples. -/
def cexSyms : Nat → List String
  | 0 => ["a0"]
  | 1 => ["a1"]
  | 2 => ["a2"]
  | 3 => ["a3"]
  | 4 => ["a4"]
  | 5 => ["a5"]
  | 6 => ["a6"]
  | _ => []

/-- A two-file chain used by the resolver witnesses: 10 imports 11. -/
def chainGraph : Nat → List Nat
  | 10 => [11]
  | _ => []

/-- Symbols for the two-file chain. -/
def chainSyms : Nat → List String
  | 10 => ["m"]
  | 11 => ["n"]
  | _ => []

theorem dropTakeWhileLen (p : Char → Bool) :
    ∀ l : List Char, l.drop (l.takeWhile p).length = l.dropWhile p := by
  intro l
  induction l with
  | nil => simp
  | cons a l ih =>
    by_cases h : p a
    · simp [List.takeWhile_cons, List.dropWhile_cons, h, ih]
    · replace h : p a = false := by simpa using h
      simp [List.takeWhile_cons, List.dropWhile_cons, h]

theorem dropWhileLenLe (p : Char → Bool) (l : List Char) :
    (l.dropWhile p).length ≤ l.length := by
  rw [← dropTakeWhileLen p l]
  simp [List.length_drop]

theorem dropWhileHeadNot (p : Char → Bool) :
    ∀ (l : List Char) (d : Char) (ds : List Char),
      l.dropWhile p = d :: ds → p d = false := by
  intro l
  induction l with
  | nil => intro d ds h; simp at h
  | cons a l ih =>
    intro d ds h
    by_cases ha : p a
    · rw [List.dropWhile_cons] at h
      simp only [ha, if_true] at h
      exact ih d ds h
    · replace ha : p a = false := by simpa using ha
      simp [List.dropWhile_cons, ha] at h
      rw [← h.1]
      exact ha

theorem memTakeWhileWord :
    ∀ (l : List Char) (d : Char) (ds : List Char),
      l.dropWhile isAlnumAZ = d :: ds → isWordChar d = true →
      d ∈ l.takeWhile isWordChar := by
  intro l
  induction l with
  | nil => intro d ds h _; simp at h
  | cons a l ih =>
    intro d ds h hw
    by_cases ha : isAlnumAZ a
    · rw [List.dropWhile_cons] at h
      simp only [ha, if_true] at h
      have hwa : isWordChar a = true := by simp [isWordChar, ha]
      simp [List.takeWhile_cons, hwa]
      exact Or.inr (ih d ds h hw)
    · replace ha : isAlnumAZ a = false := by simpa using ha
      simp [List.dropWhile_cons, ha] at h
      rw [← h.1] at hw ⊢
      simp [List.takeWhile_cons, hw]

theorem takeWhileAgree :
    ∀ l : List Char,
      (∀ d ds, l.dropWhile isAlnumAZ = d :: ds → isWordChar d = false) →
      l.takeWhile isWordChar = l.takeWhile isAlnumAZ ∧
      l.dropWhile isWordChar = l.dropWhile isAlnumAZ := by
  intro l
  induction l with
  | nil => intro _; simp
  | cons a l ih =>
    intro h
    by_cases ha : isAlnumAZ a
    · have hwa : isWordChar a = true := by simp [isWordChar, ha]
      have h2 := ih (fun d ds hd =>
        h d ds (by simp [List.dropWhile_cons, ha]; exact hd))
      simp [List.takeWhile_cons, List.dropWhile_cons, ha, hwa, h2.1, h2.2]
    · replace ha : isAlnumAZ a = false := by simpa using ha
      have hd : (a :: l).dropWhile isAlnumAZ = a :: l := by
        simp [List.dropWhile_cons, ha]
      have hwa : isWordChar a = false := h a l hd
      simp [List.takeWhile_cons, List.dropWhile_cons, ha, hwa]

theorem upperIsAlnum (c : Char) (h : c.isUpper = true) : isAlnumAZ c = true := by
  simp [isAlnumAZ, h]

theorem upperIsWord (c : Char) (h : c.isUpper = true) : isWordChar c = true := by
  simp [isWordChar, upperIsAlnum c h]

theorem execLoopSkip (n : Nat) (prevWord : Bool) (c : Char) (rest : List Char)
    (h : (!prevWord && c.isUpper) = false) :
    execLoop (n + 1) prevWord (c :: rest) = execLoop n (isWordChar c) rest := by
  rw [execLoop]; simp [h]

theorem execLoopEnd (n : Nat) (c : Char) (rest : List Char)
    (hu : c.isUpper = true) (h0 : rest.dropWhile isAlnumAZ = []) :
    execLoop (n + 1) false (c :: rest) =
      [(c :: rest.takeWhile isAlnumAZ).asString] := by
  rw [execLoop]
  simp only [Bool.not_false, hu, Bool.and_true, if_true]
  split
  · rfl
  · rename_i d ds hd
    rw [dropTakeWhileLen, h0] at hd
    exact absurd hd (by simp)

theorem execLoopFail (n : Nat) (c : Char) (rest : List Char)
    (hu : c.isUpper = true) (d : Char) (ds : List Char)
    (hdw : rest.dropWhile isAlnumAZ = d :: ds) (hw : isWordChar d = true) :
    execLoop (n + 1) false (c :: rest) = execLoop n true rest := by
  rw [execLoop]
  simp only [Bool.not_false, hu, Bool.and_true, if_true]
  split
  · rename_i h0
    rw [dropTakeWhileLen, hdw] at h0
    exact absurd h0 (by simp)
  · rename_i d2 ds2 hd2
    rw [dropTakeWhileLen, hdw] at hd2
    cases hd2
    simp [hw]

theorem execLoopEmit (n : Nat) (c : Char) (rest : List Char)
    (hu : c.isUpper = true) (d : Char) (ds : List Char)
    (hdw : rest.dropWhile isAlnumAZ = d :: ds) (hw : isWordChar d = false) :
    execLoop (n + 1) false (c :: rest) =
      (c :: rest.takeWhile isAlnumAZ).asString :: execLoop n true (d :: ds) := by
  rw [execLoop]
  simp only [Bool.not_false, hu, Bool.and_true, if_true]
  split
  · rename_i h0
    rw [dropTakeWhileLen, hdw] at h0
    exact absurd h0 (by simp)
  · rename_i d2 ds2 hd2
    rw [dropTakeWhileLen, hdw] at hd2
    cases hd2
    simp [hw]

theorem wordRunsFuelCongr :
    ∀ (f1 f2 : Nat) (cs : List Char), cs.length ≤ f1 → cs.length ≤ f2 →
      wordRuns f1 cs = wordRuns f2 cs := by
  intro f1
  induction f1 with
  | zero =>
    intro f2 cs h1 _
    have : cs = [] := List.eq_nil_of_length_eq_zero (Nat.le_zero.mp h1)
    subst this
    cases f2 <;> simp [wordRuns]
  | succ f1 ih =>
    intro f2 cs h1 h2
    cases cs with
    | nil => cases f2 <;> simp [wordRuns]
    | cons c rest =>
      cases f2 with
      | zero => simp at h2
      | succ f2 =>
        rw [wordRuns, wordRuns]
        simp only [List.length_cons] at h1 h2
        by_cases hw : isWordChar c
        · simp only [hw, if_true]
          have hlen : (rest.drop (rest.takeWhile isWordChar).length).length ≤
              rest.length := by simp [List.length_drop]
          rw [ih f2 _ (by omega) (by omega)]
        · replace hw : isWordChar c = false := by simpa using hw
          simp only [hw, Bool.false_eq_true, if_false]
          exact ih f2 rest (by omega) (by omega)

theorem wordRunsOfConsWord (c : Char) (rest : List Char)
    (h : isWordChar c = true) :
    wordRunsOf (c :: rest) =
      (c :: rest.takeWhile isWordChar) :: wordRunsOf (rest.dropWhile isWordChar) := by
  unfold wordRunsOf
  simp only [List.length_cons]
  rw [wordRuns]
  simp only [h, if_true, dropTakeWhileLen]
  rw [wordRunsFuelCongr rest.length (rest.dropWhile isWordChar).length
    (rest.dropWhile isWordChar) (dropWhileLenLe isWordChar rest) le_rfl]

theorem wordRunsOfConsNot (c : Char) (rest : List Char)
    (h : isWordChar c = false) :
    wordRunsOf (c :: rest) = wordRunsOf rest := by
  unfold wordRunsOf
  simp only [List.length_cons]
  rw [wordRuns]
  simp only [h, Bool.false_eq_true, if_false]

theorem execLoopEq :
    ∀ (n : Nat) (cs : List Char), cs.length ≤ n →
      execLoop n false cs =
        ((wordRunsOf cs).filter patMatch).map List.asString ∧
      execLoop n true cs =
        ((wordRunsOf (cs.dropWhile isWordChar)).filter patMatch).map
          List.asString := by
  intro n
  induction n with
  | zero =>
    intro cs hcs
    have hnil : cs = [] := List.eq_nil_of_length_eq_zero (Nat.le_zero.mp hcs)
    subst hnil
    constructor <;> simp [execLoop, wordRunsOf, wordRuns]
  | succ n ih =>
    intro cs hcs
    cases cs with
    | nil => constructor <;> simp [execLoop, wordRunsOf, wordRuns]
    | cons c rest =>
      have hr : rest.length ≤ n := by
        simpa using Nat.le_of_succ_le_succ hcs
      constructor
      · -- start-of-text / after-non-word state
        by_cases hu : c.isUpper
        · -- attempt a match at c
          cases hdw : rest.dropWhile isAlnumAZ with
          | nil =>
            -- the rest is all alphanumeric: single final match
            have hagree := takeWhileAgree rest
              (by intro d ds hd; rw [hdw] at hd; exact absurd hd (by simp))
            rw [execLoopEnd n c rest hu hdw,
              wordRunsOfConsWord c rest (upperIsWord c hu), hagree.1,
              hagree.2, hdw]
            have hpat : patMatch (c :: rest.takeWhile isAlnumAZ) = true := by
              simp only [patMatch, hu, Bool.true_and, List.all_eq_true]
              intro x hx
              exact List.mem_takeWhile_imp hx
            simp [wordRunsOf, wordRuns, hpat]
          | cons d ds =>
            by_cases hwd : isWordChar d
            · -- trailing boundary fails: the maximal word run spans an
              -- underscore, no match here
              rw [execLoopFail n c rest hu d ds hdw hwd,
                wordRunsOfConsWord c rest (upperIsWord c hu)]
              have hmem : d ∈ rest.takeWhile isWordChar :=
                memTakeWhileWord rest d ds hdw hwd
              have hdal : isAlnumAZ d = false := dropWhileHeadNot _ rest d ds hdw
              have hpat : patMatch (c :: rest.takeWhile isWordChar) = false := by
                simp only [patMatch, hu, Bool.true_and]
                rw [Bool.eq_false_iff]
                intro hall
                rw [List.all_eq_true] at hall
                exact absurd (hall d hmem) (by simp [hdal])
              rw [List.filter_cons]
              simp only [hpat, Bool.false_eq_true, if_false]
              exact (ih rest hr).2
            · -- match emitted, scanning resumes after it
              replace hwd : isWordChar d = false := by simpa using hwd
              have hagree := takeWhileAgree rest
                (by intro d2 ds2 hd2; rw [hdw] at hd2; cases hd2; exact hwd)
              have hlen : (d :: ds).length ≤ n := by
                have hdl : (rest.dropWhile isAlnumAZ).length ≤ rest.length :=
                  dropWhileLenLe isAlnumAZ rest
                rw [hdw] at hdl
                simp only [List.length_cons] at hdl ⊢
                omega
              rw [execLoopEmit n c rest hu d ds hdw hwd,
                wordRunsOfConsWord c rest (upperIsWord c hu), hagree.1,
                hagree.2, hdw]
              have hpat : patMatch (c :: rest.takeWhile isAlnumAZ) = true := by
                simp only [patMatch, hu, Bool.true_and, List.all_eq_true]
                intro x hx
                exact List.mem_takeWhile_imp hx
              rw [List.filter_cons]
              simp only [hpat, if_true, List.map_cons]
              have h2 := (ih (d :: ds) hlen).2
              rw [List.dropWhile_cons] at h2
              simp only [hwd, Bool.false_eq_true, if_false] at h2
              rw [h2]
        · -- no match attempt at c
          replace hu : c.isUpper = false := by simpa using hu
          rw [execLoopSkip n false c rest (by simp [hu])]
          by_cases hw : isWordChar c
          · rw [hw, wordRunsOfConsWord c rest hw]
            have hpat : patMatch (c :: rest.takeWhile isWordChar) = false := by
              simp [patMatch, hu]
            rw [List.filter_cons]
            simp only [hpat, Bool.false_eq_true, if_false]
            exact (ih rest hr).2
          · replace hw : isWordChar c = false := by simpa using hw
            rw [hw, wordRunsOfConsNot c rest hw]
            exact (ih rest hr).1
      · -- after-word-character state: no match can start here
        rw [execLoopSkip n true c rest (by simp)]
        by_cases hw : isWordChar c
        · have hdrop2 : (c :: rest).dropWhile isWordChar =
              rest.dropWhile isWordChar := by
            rw [List.dropWhile_cons]; simp [hw]
          rw [hw, hdrop2]
          exact (ih rest hr).2
        · replace hw : isWordChar c = false := by simpa using hw
          have hdrop2 : (c :: rest).dropWhile isWordChar = c :: rest := by
            rw [List.dropWhile_cons]; simp [hw]
          rw [hw, hdrop2, wordRunsOfConsNot c rest hw]
          exact (ih rest hr).1

theorem insertRefMem (acc : List String) (n tok : String) :
    tok ∈ insertRef acc n ↔ tok ∈ acc ∨ tok = n := by
  unfold insertRef
  by_cases h : n ∈ acc
  · simp only [h, if_true]
    constructor
    · exact Or.inl
    · rintro (h1 | rfl)
      · exact h1
      · exact h
  · simp [h]

theorem insertRefNodup (acc : List String) (n : String) (h : acc.Nodup) :
    (insertRef acc n).Nodup := by
  unfold insertRef
  by_cases hn : n ∈ acc
  · simpa [hn]
  · rw [if_neg hn]
    simp [List.nodup_append, h, hn]

theorem foldInsMem :
    ∀ (L acc : List String) (tok : String),
      tok ∈ L.foldl
          (fun refs n => if n ∈ builtins then refs else insertRef refs n)
          acc ↔
        tok ∈ acc ∨ (tok ∈ L ∧ tok ∉ builtins) := by
  intro L
  induction L with
  | nil => intro acc tok; simp
  | cons x L ih =>
    intro acc tok
    rw [List.foldl_cons]
    by_cases hx : x ∈ builtins
    · rw [if_pos hx, ih]
      constructor
      · rintro (h | h)
        · exact Or.inl h
        · exact Or.inr ⟨List.mem_cons_of_mem x h.1, h.2⟩
      · rintro (h | ⟨hm, hb⟩)
        · exact Or.inl h
        · rcases List.mem_cons.mp hm with heq | hm2
          · exact absurd (heq ▸ hx) hb
          · exact Or.inr ⟨hm2, hb⟩
    · rw [if_neg hx, ih]
      constructor
      · rintro (h | h)
        · rcases (insertRefMem acc x tok).mp h with h2 | heq
          · exact Or.inl h2
          · refine Or.inr ⟨?_, heq ▸ hx⟩
            rw [heq]
            exact List.mem_cons_self x L
        · exact Or.inr ⟨List.mem_cons_of_mem x h.1, h.2⟩
      · rintro (h | ⟨hm, hb⟩)
        · exact Or.inl ((insertRefMem acc x tok).mpr (Or.inl h))
        · rcases List.mem_cons.mp hm with heq | hm2
          · exact Or.inl ((insertRefMem acc x tok).mpr (Or.inr heq))
          · exact Or.inr ⟨hm2, hb⟩

theorem foldInsNodup :
    ∀ (L acc : List String), acc.Nodup →
      (L.foldl
          (fun refs n => if n ∈ builtins then refs else insertRef refs n)
          acc).Nodup := by
  intro L
  induction L with
  | nil => intro acc h; simpa
  | cons x L ih =>
    intro acc h
    rw [List.foldl_cons]
    by_cases hx : x ∈ builtins
    · rw [if_pos hx]; exact ih acc h
    · rw [if_neg hx]; exact ih _ (insertRefNodup acc x h)

/-- C9: for every signature string, the reference scanner returns exactly
the set (no duplicates, order irrelevant) of maximal tokens matching
[A-Z][A-Za-z0-9]* that are not in the fixed deny-list; a string with zero
candidates yields the empty set (and, the function being total, never an
error). -/
theorem c9_scanner_returns_maximal_tokens (s : String) :
    (extractTypeReferences s).Nodup ∧
    (∀ tok, tok ∈ extractTypeReferences s ↔ tok ∈ specMaximalTokens s) ∧
    (specMaximalTokens s = [] → extractTypeReferences s = []) := by
  have hmat : regexMatches s =
      ((wordRunsOf s.data).filter patMatch).map List.asString :=
    (execLoopEq s.data.length s.data le_rfl).1
  have hmem : ∀ tok,
      tok ∈ extractTypeReferences s ↔ tok ∈ specMaximalTokens s := by
    intro tok
    rw [extractTypeReferences, foldInsMem]
    simp only [List.not_mem_nil, false_or]
    rw [hmat]
    unfold specMaximalTokens
    rw [List.mem_filter]
    simp
  refine ⟨?_, hmem, ?_⟩
  · exact foldInsNodup (regexMatches s) [] List.nodup_nil
  · intro h
    rw [List.eq_nil_iff_forall_not_mem]
    intro tok htok
    rw [hmem tok, h] at htok
    simp at htok

/-- Witness for C9 at a concrete signature string. -/
theorem c9_witness :
    (("Gadget" ∈ extractTypeReferences "function f(x: Widget_t): Gadget") ↔
      ("Gadget" ∈ specMaximalTokens "function f(x: Widget_t): Gadget")) ∧
    extractTypeReferences "function f(x: Widget_t): Gadget" = ["Gadget"] :=
  ⟨(c9_scanner_returns_maximal_tokens
      "function f(x: Widget_t): Gadget").2.1 "Gadget", by decide⟩

theorem estimateTokensPos (t : ExtractedType) : 1 ≤ estimateTokens t := by
  unfold estimateTokens
  dsimp only
  refine (Nat.le_div_iff_mul_le (by norm_num)).mpr ?_
  omega

theorem packTierRun (tokenBudget : Int) (mustInclude : Bool)
    (bump : TierCounts → TierCounts) :
    ∀ (l : List ExtractedType) (st : PackState),
      ∃ ext : List ExtractedType,
        (packTier tokenBudget mustInclude bump l st).result =
          st.result ++ ext ∧
        (packTier tokenBudget mustInclude bump l st).includedNames =
          st.includedNames ++ ext.map (fun t => t.name) ∧
        (∀ x ∈ ext, x ∈ l) := by
  intro l
  induction l with
  | nil => intro st; exact ⟨[], by simp [packTier]⟩
  | cons t rest ih =>
    intro st
    rw [packTier]
    by_cases hdup : t.name ∈ st.includedNames
    · rw [if_pos hdup]
      obtain ⟨ext, h1, h2, h3⟩ := ih st
      exact ⟨ext, h1, h2, fun x hx => List.mem_cons_of_mem t (h3 x hx)⟩
    · rw [if_neg hdup]
      by_cases hskip :
          (!mustInclude &&
            decide (tokenBudget <
              ((st.totalTokens + estimateTokens t : Nat) : Int))) = true
      · rw [if_pos hskip]
        obtain ⟨ext, h1, h2, h3⟩ := ih { st with budgetExceeded := true }
        exact ⟨ext, h1, h2, fun x hx => List.mem_cons_of_mem t (h3 x hx)⟩
      · rw [if_neg hskip]
        obtain ⟨ext, h1, h2, h3⟩ := ih
          { st with
            result := st.result ++ [t]
            includedNames := st.includedNames ++ [t.name]
            totalTokens := st.totalTokens + estimateTokens t
            counts := bump st.counts }
        refine ⟨t :: ext, ?_, ?_, ?_⟩
        · simpa using h1
        · simpa using h2
        · intro x hx
          rcases List.mem_cons.mp hx with heq | hx2
          · rw [heq]; exact List.mem_cons_self t rest
          · exact List.mem_cons_of_mem t (h3 x hx2)

theorem packTierNamesInv (tokenBudget : Int) (mustInclude : Bool)
    (bump : TierCounts → TierCounts) (l : List ExtractedType) (st : PackState)
    (h : st.includedNames = st.result.map (fun t => t.name)) :
    (packTier tokenBudget mustInclude bump l st).includedNames =
      (packTier tokenBudget mustInclude bump l st).result.map
        (fun t => t.name) := by
  obtain ⟨ext, h1, h2, _⟩ := packTierRun tokenBudget mustInclude bump l st
  rw [h1, h2, h, List.map_append]

theorem packTierNodupNames (tokenBudget : Int) (mustInclude : Bool)
    (bump : TierCounts → TierCounts) :
    ∀ (l : List ExtractedType) (st : PackState), st.includedNames.Nodup →
      (packTier tokenBudget mustInclude bump l st).includedNames.Nodup := by
  intro l
  induction l with
  | nil => intro st h; simpa [packTier]
  | cons t rest ih =>
    intro st h
    rw [packTier]
    by_cases hdup : t.name ∈ st.includedNames
    · rw [if_pos hdup]; exact ih st h
    · rw [if_neg hdup]
      by_cases hskip :
          (!mustInclude &&
            decide (tokenBudget <
              ((st.totalTokens + estimateTokens t : Nat) : Int))) = true
      · rw [if_pos hskip]; exact ih _ h
      · rw [if_neg hskip]
        refine ih _ ?_
        simp [List.nodup_append, h, hdup]

theorem packTierMustSame (b1 b2 : Int) (bump : TierCounts → TierCounts) :
    ∀ (l : List ExtractedType) (st : PackState),
      packTier b1 true bump l st = packTier b2 true bump l st := by
  intro l
  induction l with
  | nil => intro st; simp [packTier]
  | cons t rest ih =>
    intro st
    rw [packTier, packTier]
    by_cases hdup : t.name ∈ st.includedNames
    · rw [if_pos hdup, if_pos hdup]; exact ih st
    · rw [if_neg hdup, if_neg hdup]
      simp only [Bool.not_true, Bool.false_and, Bool.false_eq_true, if_false]
      exact ih _

theorem packTierMustCovers (b : Int) (bump : TierCounts → TierCounts) :
    ∀ (l : List ExtractedType) (st : PackState), ∀ t ∈ l,
      t.name ∈ (packTier b true bump l st).includedNames := by
  intro l
  induction l with
  | nil => intro st t ht; simp at ht
  | cons x rest ih =>
    intro st t ht
    rw [packTier]
    by_cases hdup : x.name ∈ st.includedNames
    · rw [if_pos hdup]
      rcases List.mem_cons.mp ht with heq | ht2
      · obtain ⟨ext, _, h2, _⟩ := packTierRun b true bump rest st
        rw [h2, heq]
        exact List.mem_append_left _ hdup
      · exact ih st t ht2
    · rw [if_neg hdup]
      simp only [Bool.not_true, Bool.false_and, Bool.false_eq_true, if_false]
      rcases List.mem_cons.mp ht with heq | ht2
      · obtain ⟨ext, _, h2, _⟩ := packTierRun b true bump rest
          { st with
            result := st.result ++ [x]
            includedNames := st.includedNames ++ [x.name]
            totalTokens := st.totalTokens + estimateTokens x
            counts := bump st.counts }
        rw [h2, heq]
        exact List.mem_append_left _ (by simp)
      · exact ih _ t ht2

theorem packTierExceededMust (b : Int) (bump : TierCounts → TierCounts) :
    ∀ (l : List ExtractedType) (st : PackState),
      (packTier b true bump l st).budgetExceeded = st.budgetExceeded := by
  intro l
  induction l with
  | nil => intro st; simp [packTier]
  | cons t rest ih =>
    intro st
    rw [packTier]
    by_cases hdup : t.name ∈ st.includedNames
    · rw [if_pos hdup]; exact ih st
    · rw [if_neg hdup]
      simp only [Bool.not_true, Bool.false_and, Bool.false_eq_true, if_false]
      exact ih _

theorem packTierNonpos (b : Int) (hb : b ≤ 0)
    (bump : TierCounts → TierCounts) :
    ∀ (l : List ExtractedType) (st : PackState),
      (packTier b false bump l st).result = st.result ∧
      (packTier b false bump l st).includedNames = st.includedNames ∧
      (packTier b false bump l st).totalTokens = st.totalTokens ∧
      (packTier b false bump l st).budgetExceeded =
        (st.budgetExceeded ||
          l.any (fun t => decide (t.name ∉ st.includedNames))) := by
  intro l
  induction l with
  | nil => intro st; simp [packTier]
  | cons t rest ih =>
    intro st
    rw [packTier]
    by_cases hdup : t.name ∈ st.includedNames
    · rw [if_pos hdup]
      obtain ⟨h1, h2, h3, h4⟩ := ih st
      refine ⟨h1, h2, h3, ?_⟩
      rw [h4, List.any_cons]
      simp [hdup]
    · rw [if_neg hdup]
      have hlt : b < ((st.totalTokens + estimateTokens t : Nat) : Int) := by
        have htok := estimateTokensPos t
        have hn : 1 ≤ st.totalTokens + estimateTokens t := by omega
        have h1 : (1 : Int) ≤ ((st.totalTokens + estimateTokens t : Nat) : Int) := by
          exact_mod_cast hn
        omega
      rw [if_pos (by
        simp only [Bool.not_false, Bool.true_and, decide_eq_true_eq]
        exact hlt)]
      obtain ⟨h1, h2, h3, h4⟩ := ih { st with budgetExceeded := true }
      refine ⟨h1, h2, h3, ?_⟩
      rw [h4, List.any_cons]
      simp [hdup]

theorem isFunctionKindIff (t : ExtractedType) :
    isFunctionKind t = true ↔ t.kind = ExtractedTypeKind.function := by
  unfold isFunctionKind
  cases h : t.kind <;> simp

/-- C10: the packer's output never contains two symbols with the same name;
on a concrete list holding a local and an imported symbol that share a name,
only the earlier (tier-4, local) one survives even though the budget would
admit both. -/
theorem c10_output_names_unique :
    (∀ (types : List ExtractedType) (b : Int),
      ((prioritizeTypes types b).types.map (fun t => t.name)).Nodup) ∧
    (prioritizeTypes dupPair 1000).types = [dupLocal] := by
  constructor
  · intro types b
    unfold prioritizeTypes
    dsimp only
    have h0 : (initialPackState).includedNames =
        (initialPackState).result.map (fun t => t.name) := rfl
    have h0n : (initialPackState).includedNames.Nodup := List.nodup_nil
    have h1 := packTierNamesInv b true
      (fun c => { c with tier1 := c.tier1 + 1 }) (assignTiers types).tier1
      initialPackState h0
    have h1n := packTierNodupNames b true
      (fun c => { c with tier1 := c.tier1 + 1 }) (assignTiers types).tier1
      initialPackState h0n
    have h2 := packTierNamesInv b false
      (fun c => { c with tier2 := c.tier2 + 1 }) (assignTiers types).tier2 _ h1
    have h2n := packTierNodupNames b false
      (fun c => { c with tier2 := c.tier2 + 1 }) (assignTiers types).tier2 _ h1n
    have h3 := packTierNamesInv b false
      (fun c => { c with tier3 := c.tier3 + 1 }) (assignTiers types).tier3 _ h2
    have h3n := packTierNodupNames b false
      (fun c => { c with tier3 := c.tier3 + 1 }) (assignTiers types).tier3 _ h2n
    have h4 := packTierNamesInv b false
      (fun c => { c with tier4 := c.tier4 + 1 }) (assignTiers types).tier4 _ h3
    have h4n := packTierNodupNames b false
      (fun c => { c with tier4 := c.tier4 + 1 }) (assignTiers types).tier4 _ h3n
    have h5 := packTierNamesInv b false
      (fun c => { c with tier5 := c.tier5 + 1 }) (assignTiers types).tier5 _ h4
    have h5n := packTierNodupNames b false
      (fun c => { c with tier5 := c.tier5 + 1 }) (assignTiers types).tier5 _ h4n
    rw [← h5]
    exact h5n
  · decide

/-- Counterexample to C1 as stated: the second of two same-named functions
is a tier-1 symbol of the input yet absent from the output, because the
includedNames check deduplicates by bare name. -/
theorem c1_counterexample :
    dupF2 ∈ dupFunctions ∧ dupF2.kind = ExtractedTypeKind.function ∧
    dupF2 ∉ (prioritizeTypes dupFunctions 1000).types := by decide

/-- C1 amended: for every input and every budget, every tier-1 (function)
symbol of the input is represented in the output by a function bearing its
name (the first input function of that name); this holds with no budget
check.  Only a later function whose name collides with an earlier one is
dropped, by name deduplication. -/
theorem c1_tier1_always_included (types : List ExtractedType) (b : Int)
    (t : ExtractedType) (ht : t ∈ types)
    (hk : t.kind = ExtractedTypeKind.function) :
    ∃ x, x ∈ (prioritizeTypes types b).types ∧ x.name = t.name ∧
      x.kind = ExtractedTypeKind.function := by
  unfold prioritizeTypes
  dsimp only
  have htier : t ∈ (assignTiers types).tier1 := by
    unfold assignTiers functionsOf
    exact List.mem_filter.mpr ⟨ht, (isFunctionKindIff t).mpr hk⟩
  have hcov := packTierMustCovers b
    (fun c => { c with tier1 := c.tier1 + 1 }) (assignTiers types).tier1
    initialPackState t htier
  have hinv := packTierNamesInv b true
    (fun c => { c with tier1 := c.tier1 + 1 }) (assignTiers types).tier1
    initialPackState rfl
  rw [hinv] at hcov
  obtain ⟨x, hx1, hx2⟩ := List.mem_map.mp hcov
  obtain ⟨ext1, he1, _, hsub1⟩ := packTierRun b true
    (fun c => { c with tier1 := c.tier1 + 1 }) (assignTiers types).tier1
    initialPackState
  have hxt : x ∈ (assignTiers types).tier1 := by
    rw [he1] at hx1
    simp only [initialPackState, List.nil_append] at hx1
    exact hsub1 x hx1
  have hxk : x.kind = ExtractedTypeKind.function := by
    have := List.mem_filter.mp hxt
    exact (isFunctionKindIff x).mp this.2
  refine ⟨x, ?_, hx2, hxk⟩
  obtain ⟨e2, he2, _, _⟩ := packTierRun b false
    (fun c => { c with tier2 := c.tier2 + 1 }) (assignTiers types).tier2 _
  obtain ⟨e3, he3, _, _⟩ := packTierRun b false
    (fun c => { c with tier3 := c.tier3 + 1 }) (assignTiers types).tier3 _
  obtain ⟨e4, he4, _, _⟩ := packTierRun b false
    (fun c => { c with tier4 := c.tier4 + 1 }) (assignTiers types).tier4 _
  obtain ⟨e5, he5, _, _⟩ := packTierRun b false
    (fun c => { c with tier5 := c.tier5 + 1 }) (assignTiers types).tier5 _
  rw [he5, he4, he3, he2]
  exact List.mem_append_left _ (List.mem_append_left _
    (List.mem_append_left _ (List.mem_append_left _ hx1)))

/-- Witness for the amended C1 on Scenario A at a tiny budget. -/
theorem c1_witness :
    c7f ∈ scenarioA ∧ c7f.kind = ExtractedTypeKind.function ∧
    ∃ x, x ∈ (prioritizeTypes scenarioA 1).types ∧ x.name = c7f.name ∧
      x.kind = ExtractedTypeKind.function :=
  ⟨by decide, by decide,
    c1_tier1_always_included scenarioA 1 c7f (by decide) (by decide)⟩

theorem packTierMustResult (b : Int) (bump : TierCounts → TierCounts) :
    ∀ (l : List ExtractedType) (st : PackState),
      (packTier b true bump l st).result =
        st.result ++ dedupByName l st.includedNames ∧
      (packTier b true bump l st).includedNames =
        st.includedNames ++
          (dedupByName l st.includedNames).map (fun t => t.name) := by
  intro l
  induction l with
  | nil => intro st; simp [packTier, dedupByName]
  | cons t rest ih =>
    intro st
    rw [packTier, dedupByName]
    by_cases hdup : t.name ∈ st.includedNames
    · rw [if_pos hdup, if_pos hdup]
      exact ih st
    · rw [if_neg hdup, if_neg hdup]
      simp only [Bool.not_true, Bool.false_and, Bool.false_eq_true, if_false]
      obtain ⟨h1, h2⟩ := ih
        { st with
          result := st.result ++ [t]
          includedNames := st.includedNames ++ [t.name]
          totalTokens := st.totalTokens + estimateTokens t
          counts := bump st.counts }
      constructor
      · rw [h1]; simp
      · rw [h2]; simp

theorem dedupByNameSub :
    ∀ (l : List ExtractedType) (seen : List String) (x : ExtractedType),
      x ∈ dedupByName l seen → x ∈ l := by
  intro l
  induction l with
  | nil => intro seen x hx; simp [dedupByName] at hx
  | cons t rest ih =>
    intro seen x hx
    rw [dedupByName] at hx
    by_cases hdup : t.name ∈ seen
    · rw [if_pos hdup] at hx
      exact List.mem_cons_of_mem t (ih seen x hx)
    · rw [if_neg hdup] at hx
      rcases List.mem_cons.mp hx with heq | hx2
      · rw [heq]; exact List.mem_cons_self t rest
      · exact List.mem_cons_of_mem t (ih _ x hx2)

theorem dedupByNameNames :
    ∀ (l : List ExtractedType) (seen : List String) (n : String),
      n ∈ (dedupByName l seen).map (fun t => t.name) ↔
        n ∈ l.map (fun t => t.name) ∧ n ∉ seen := by
  intro l
  induction l with
  | nil => intro seen n; simp [dedupByName]
  | cons t rest ih =>
    intro seen n
    rw [dedupByName]
    by_cases hdup : t.name ∈ seen
    · rw [if_pos hdup, ih]
      simp only [List.map_cons, List.mem_cons]
      constructor
      · rintro ⟨h1, h2⟩
        exact ⟨Or.inr h1, h2⟩
      · rintro ⟨h1 | h1, h2⟩
        · rw [h1] at h2
          exact absurd hdup h2
        · exact ⟨h1, h2⟩
    · rw [if_neg hdup]
      simp only [List.map_cons, List.mem_cons, ih, List.mem_append,
        List.mem_singleton]
      constructor
      · rintro (heq | ⟨h1, h2⟩)
        · rw [heq]
          exact ⟨Or.inl rfl, hdup⟩
        · exact ⟨Or.inr h1, fun hn => h2 (Or.inl hn)⟩
      · rintro ⟨heq | h1, h2⟩
        · exact Or.inl heq
        · by_cases hne : n = t.name
          · exact Or.inl hne
          · refine Or.inr ⟨h1, ?_⟩
            rintro (hs | hs)
            · exact h2 hs
            · simp at hs
              exact hne hs

/-- Counterexample to C5 as stated: with budget 0 and an input consisting
of a single function, the output does contain exactly the tier-1 symbols,
but budgetExceeded is false, not "true immediately": the flag is only set
when some tier-2..5 symbol is actually skipped. -/
theorem c5_counterexample :
    (0 : Int) ≤ 0 ∧
    (prioritizeTypes [soloFn] 0).types = [soloFn] ∧
    (prioritizeTypes [soloFn] 0).budgetExceeded = false := by decide

/-- C5 amended: when tokenBudget ≤ 0 the output is exactly the name-wise
deduplicated tier-1 list (hence only functions), and budgetExceeded is true
precisely when tiers 2..5 contain at least one symbol whose name is not
already a tier-1 name (in particular it stays false on all-function or
empty inputs). -/
theorem c5_nonpositive_budget (types : List ExtractedType) (b : Int)
    (hb : b ≤ 0) :
    (prioritizeTypes types b).types = dedupByName (assignTiers types).tier1 [] ∧
    (∀ t ∈ (prioritizeTypes types b).types,
      t.kind = ExtractedTypeKind.function) ∧
    ((prioritizeTypes types b).budgetExceeded = true ↔
      ∃ t ∈ (assignTiers types).tier2 ++ (assignTiers types).tier3 ++
          (assignTiers types).tier4 ++ (assignTiers types).tier5,
        t.name ∉ ((assignTiers types).tier1).map (fun x => x.name)) := by
  unfold prioritizeTypes
  dsimp only
  set T := assignTiers types with hT
  set s1 := packTier b true (fun c => { c with tier1 := c.tier1 + 1 }) T.tier1
    initialPackState with hs1
  set s2 := packTier b false (fun c => { c with tier2 := c.tier2 + 1 }) T.tier2
    s1 with hs2
  set s3 := packTier b false (fun c => { c with tier3 := c.tier3 + 1 }) T.tier3
    s2 with hs3
  set s4 := packTier b false (fun c => { c with tier4 := c.tier4 + 1 }) T.tier4
    s3 with hs4
  set s5 := packTier b false (fun c => { c with tier5 := c.tier5 + 1 }) T.tier5
    s4 with hs5
  obtain ⟨hm1, hm2⟩ := packTierMustResult b
    (fun c => { c with tier1 := c.tier1 + 1 }) T.tier1 initialPackState
  rw [← hs1] at hm1 hm2
  simp only [initialPackState, List.nil_append] at hm1 hm2
  have he1 := packTierExceededMust b
    (fun c => { c with tier1 := c.tier1 + 1 }) T.tier1 initialPackState
  rw [← hs1] at he1
  simp only [initialPackState] at he1
  obtain ⟨h2r, h2n, h2t, h2e⟩ := packTierNonpos b hb
    (fun c => { c with tier2 := c.tier2 + 1 }) T.tier2 s1
  rw [← hs2] at h2r h2n h2t h2e
  obtain ⟨h3r, h3n, h3t, h3e⟩ := packTierNonpos b hb
    (fun c => { c with tier3 := c.tier3 + 1 }) T.tier3 s2
  rw [← hs3] at h3r h3n h3t h3e
  obtain ⟨h4r, h4n, h4t, h4e⟩ := packTierNonpos b hb
    (fun c => { c with tier4 := c.tier4 + 1 }) T.tier4 s3
  rw [← hs4] at h4r h4n h4t h4e
  obtain ⟨h5r, h5n, h5t, h5e⟩ := packTierNonpos b hb
    (fun c => { c with tier5 := c.tier5 + 1 }) T.tier5 s4
  rw [← hs5] at h5r h5n h5t h5e
  have hres : s5.result = dedupByName T.tier1 [] := by
    rw [h5r, h4r, h3r, h2r, hm1]
  have hmemn : ∀ n, n ∈ s1.includedNames ↔
      n ∈ T.tier1.map (fun x => x.name) := by
    intro n
    rw [hm2, dedupByNameNames]
    simp
  refine ⟨hres, ?_, ?_⟩
  · intro t ht
    rw [hres] at ht
    have ht1 : t ∈ T.tier1 := dedupByNameSub T.tier1 [] t ht
    rw [hT] at ht1
    have := List.mem_filter.mp ht1
    exact (isFunctionKindIff t).mp this.2
  · rw [h5e, h4e, h3e, h2e, he1, h4n, h3n, h2n]
    simp only [Bool.false_or, Bool.or_eq_true, List.any_eq_true,
      decide_eq_true_eq, List.mem_append]
    simp only [hmemn]
    constructor
    · rintro (((⟨t, ht, hn⟩ | ⟨t, ht, hn⟩) | ⟨t, ht, hn⟩) | ⟨t, ht, hn⟩)
      · exact ⟨t, Or.inl (Or.inl (Or.inl ht)), hn⟩
      · exact ⟨t, Or.inl (Or.inl (Or.inr ht)), hn⟩
      · exact ⟨t, Or.inl (Or.inr ht), hn⟩
      · exact ⟨t, Or.inr ht, hn⟩
    · rintro ⟨t, ((ht | ht) | ht) | ht, hn⟩
      · exact Or.inl (Or.inl (Or.inl ⟨t, ht, hn⟩))
      · exact Or.inl (Or.inl (Or.inr ⟨t, ht, hn⟩))
      · exact Or.inl (Or.inr ⟨t, ht, hn⟩)
      · exact Or.inr ⟨t, ht, hn⟩

/-- Witness for the amended C5: Scenario A at budget 0 keeps exactly the
function and reports the budget as exceeded. -/
theorem c5_witness :
    (prioritizeTypes scenarioA 0).types =
      dedupByName (assignTiers scenarioA).tier1 [] ∧
    (prioritizeTypes scenarioA 0).types = [c7f] ∧
    (prioritizeTypes scenarioA 0).budgetExceeded = true :=
  ⟨(c5_nonpositive_budget scenarioA 0 (by norm_num)).1, by decide, by decide⟩

theorem packTierConsNF (b : Int) (bump : TierCounts → TierCounts)
    (t : ExtractedType) (rest : List ExtractedType) (st : PackState) :
    packTier b false bump (t :: rest) st =
      if t.name ∈ st.includedNames then packTier b false bump rest st
      else if b < ((st.totalTokens + estimateTokens t : Nat) : Int) then
        packTier b false bump rest { st with budgetExceeded := true }
      else
        packTier b false bump rest
          { st with
            result := st.result ++ [t]
            includedNames := st.includedNames ++ [t.name]
            totalTokens := st.totalTokens + estimateTokens t
            counts := bump st.counts } := by
  rw [packTier]
  simp only [Bool.not_false, Bool.true_and, decide_eq_true_eq]

theorem packTierTotalMono (b : Int) (m : Bool)
    (bump : TierCounts → TierCounts) :
    ∀ (l : List ExtractedType) (st : PackState),
      st.totalTokens ≤ (packTier b m bump l st).totalTokens := by
  intro l
  induction l with
  | nil => intro st; simp [packTier]
  | cons t rest ih =>
    intro st
    rw [packTier]
    by_cases hdup : t.name ∈ st.includedNames
    · rw [if_pos hdup]; exact ih st
    · rw [if_neg hdup]
      by_cases hskip :
          (!m && decide (b <
            ((st.totalTokens + estimateTokens t : Nat) : Int))) = true
      · rw [if_pos hskip]
        exact ih { st with budgetExceeded := true }
      · rw [if_neg hskip]
        calc st.totalTokens ≤ st.totalTokens + estimateTokens t := by omega
        _ ≤ _ := ih
          { st with
            result := st.result ++ [t]
            includedNames := st.includedNames ++ [t.name]
            totalTokens := st.totalTokens + estimateTokens t
            counts := bump st.counts }

theorem packTierTotalCap (b : Int) (bump : TierCounts → TierCounts) :
    ∀ (l : List ExtractedType) (st : PackState),
      (st.totalTokens : Int) ≤ b →
      (((packTier b false bump l st).totalTokens : Int)) ≤ b := by
  intro l
  induction l with
  | nil => intro st h; simpa [packTier]
  | cons t rest ih =>
    intro st h
    rw [packTierConsNF]
    by_cases hdup : t.name ∈ st.includedNames
    · rw [if_pos hdup]; exact ih st h
    · rw [if_neg hdup]
      by_cases hc : b < ((st.totalTokens + estimateTokens t : Nat) : Int)
      · rw [if_pos hc]; exact ih _ h
      · rw [if_neg hc]
        exact ih _ (by push_cast at hc ⊢; omega)

theorem packTierTotalStuck (b : Int) (bump : TierCounts → TierCounts) :
    ∀ (l : List ExtractedType) (st : PackState),
      b < (st.totalTokens : Int) →
      (packTier b false bump l st).totalTokens = st.totalTokens := by
  intro l
  induction l with
  | nil => intro st h; simp [packTier]
  | cons t rest ih =>
    intro st h
    rw [packTierConsNF]
    by_cases hdup : t.name ∈ st.includedNames
    · rw [if_pos hdup]; exact ih st h
    · rw [if_neg hdup]
      have hc : b < ((st.totalTokens + estimateTokens t : Nat) : Int) := by
        push_cast at h ⊢; omega
      rw [if_pos hc]
      exact ih _ h

theorem packTierRel (b1 b2 : Int) (hb : b1 ≤ b2)
    (bump : TierCounts → TierCounts) :
    ∀ (l : List ExtractedType) (s1 s2 : PackState),
      ((s1.totalTokens = s2.totalTokens ∧
          s1.includedNames = s2.includedNames) ∨
        (s1.totalTokens ≤ s2.totalTokens ∧ b1 < (s2.totalTokens : Int))) →
      (((packTier b1 false bump l s1).totalTokens =
          (packTier b2 false bump l s2).totalTokens ∧
        (packTier b1 false bump l s1).includedNames =
          (packTier b2 false bump l s2).includedNames) ∨
        ((packTier b1 false bump l s1).totalTokens ≤
          (packTier b2 false bump l s2).totalTokens ∧
          b1 < ((packTier b2 false bump l s2).totalTokens : Int))) := by
  intro l
  induction l with
  | nil => intro s1 s2 h; simpa [packTier]
  | cons t rest ih =>
    intro s1 s2 h
    rcases h with ⟨hT, hN⟩ | ⟨hle, hlt⟩
    · -- the two runs have behaved identically so far
      rw [packTierConsNF, packTierConsNF]
      by_cases hdup : t.name ∈ s1.includedNames
      · rw [if_pos hdup, if_pos (show t.name ∈ s2.includedNames by
          rw [← hN]; exact hdup)]
        exact ih s1 s2 (Or.inl ⟨hT, hN⟩)
      · rw [if_neg hdup, if_neg (show t.name ∉ s2.includedNames by
          rw [← hN]; exact hdup)]
        by_cases hc2 : b2 < ((s2.totalTokens + estimateTokens t : Nat) : Int)
        · have hc1 : b1 < ((s1.totalTokens + estimateTokens t : Nat) : Int) := by
            rw [hT]; omega
          rw [if_pos hc1, if_pos hc2]
          exact ih _ _ (Or.inl ⟨hT, hN⟩)
        · by_cases hc1 : b1 < ((s1.totalTokens + estimateTokens t : Nat) : Int)
          · -- first divergence: the larger budget includes t, the smaller
            -- skips it and can never catch up past b1 again
            rw [if_pos hc1, if_neg hc2]
            refine ih _ _ (Or.inr ⟨?_, ?_⟩)
            · dsimp
              omega
            · dsimp
              rw [hT] at hc1
              exact hc1
          · rw [if_neg hc1, if_neg hc2]
            refine ih _ _ (Or.inl ⟨?_, ?_⟩)
            · dsimp; rw [hT]
            · dsimp; rw [hN]
    · -- already diverged: the small-budget run is capped by b1, which the
      -- large-budget total has already passed
      right
      have h2mono := packTierTotalMono b2 false bump (t :: rest) s2
      constructor
      · by_cases hcase : (s1.totalTokens : Int) ≤ b1
        · have h1 := packTierTotalCap b1 bump (t :: rest) s1 hcase
          omega
        · have h1 := packTierTotalStuck b1 bump (t :: rest) s1 (by omega)
          rw [h1]
          omega
      · omega

/-- Counterexample to C3 as stated: on three tier-4 symbols of estimated
sizes 13, 6, 6 the greedy packer includes two symbols at budget 12 (skip
13, take 6 + 6) but only one at the larger budget 13 (take 13, then
nothing else fits): the included-symbol count is not monotone in the
budget. -/
theorem c3_counterexample :
    (12 : Int) ≤ 13 ∧
    (prioritizeTypes budgetCex 13).types.length <
      (prioritizeTypes budgetCex 12).types.length := by decide

/-- C3 amended: increasing tokenBudget while holding the symbol list fixed
never decreases the included token total (totalTokens); the included-symbol
count, by contrast, can decrease (c3_counterexample). -/
theorem c3_totaltokens_monotone (types : List ExtractedType) (b1 b2 : Int)
    (hb : b1 ≤ b2) :
    (prioritizeTypes types b1).totalTokens ≤
      (prioritizeTypes types b2).totalTokens := by
  unfold prioritizeTypes
  dsimp only
  rw [packTierMustSame b1 b2 (fun c => { c with tier1 := c.tier1 + 1 })
    (assignTiers types).tier1 initialPackState]
  have r2 := packTierRel b1 b2 hb (fun c => { c with tier2 := c.tier2 + 1 })
    (assignTiers types).tier2
    (packTier b2 true (fun c => { c with tier1 := c.tier1 + 1 })
      (assignTiers types).tier1 initialPackState)
    (packTier b2 true (fun c => { c with tier1 := c.tier1 + 1 })
      (assignTiers types).tier1 initialPackState)
    (Or.inl ⟨rfl, rfl⟩)
  have r3 := packTierRel b1 b2 hb (fun c => { c with tier3 := c.tier3 + 1 })
    (assignTiers types).tier3 _ _ r2
  have r4 := packTierRel b1 b2 hb (fun c => { c with tier4 := c.tier4 + 1 })
    (assignTiers types).tier4 _ _ r3
  have r5 := packTierRel b1 b2 hb (fun c => { c with tier5 := c.tier5 + 1 })
    (assignTiers types).tier5 _ _ r4
  rcases r5 with ⟨hT, _⟩ | ⟨hT, _⟩
  · exact le_of_eq hT
  · exact hT

/-- Witness for the amended C3 on the counterexample list: totals 12 and 13
at budgets 12 and 13. -/
theorem c3_witness :
    (prioritizeTypes budgetCex 12).totalTokens ≤
      (prioritizeTypes budgetCex 13).totalTokens ∧
    (prioritizeTypes budgetCex 12).totalTokens = 12 ∧
    (prioritizeTypes budgetCex 13).totalTokens = 13 :=
  ⟨c3_totaltokens_monotone budgetCex 12 13 (by norm_num), by decide, by decide⟩

/-- C7, Scenario A: classifying {f, Widget, Gadget, Part, Unrelated} where
the function signature of f mentions Widget and Gadget and the signature of
Gadget mentions Part yields tier1 = [f], tier2 = [Widget, Gadget],
tier3 = [Part], tier4 = [Unrelated], tier5 = []. -/
theorem c7_scenario_a :
    (assignTiers scenarioA).tier1 = [c7f] ∧
    (assignTiers scenarioA).tier2 = [c7w, c7g] ∧
    (assignTiers scenarioA).tier3 = [c7p] ∧
    (assignTiers scenarioA).tier4 = [c7u] ∧
    (assignTiers scenarioA).tier5 = [] := by decide

/-- C8: tier classification is deterministic and idempotent across calls.
In this embedding assignTiers is a pure function of the symbol-list value
(the TS code builds fresh Map and Set locals per call and never writes to
its input), so two calls on the same unmutated list give identical
buckets, element for element and in order. -/
theorem c8_classifier_idempotent (xs ys : List ExtractedType) (h : xs = ys) :
    assignTiers xs = assignTiers ys := by rw [h]

/-- Witness for C8 on the Scenario A list. -/
theorem c8_witness : assignTiers scenarioA = assignTiers scenarioA :=
  c8_classifier_idempotent scenarioA scenarioA rfl

theorem mapGetName (types : List ExtractedType) (n : String)
    (u : ExtractedType) (h : mapGet types n = some u) : u.name = n := by
  unfold mapGet at h
  have := List.find?_some h
  simpa using this

theorem tier3OfName (types : List ExtractedType) (t : ExtractedType)
    (ht : t ∈ tier3Of types) : t.name ∈ tier3Names types := by
  unfold tier3Of at ht
  obtain ⟨n, hn, hf⟩ := List.mem_filterMap.mp ht
  cases hg : mapGet types n with
  | none => rw [hg] at hf; simp at hf
  | some u =>
    rw [hg] at hf
    simp only [Option.some_bind] at hf
    by_cases hk : isFunctionKind u
    · rw [if_pos hk] at hf
      simp at hf
    · rw [if_neg hk] at hf
      have hu : u = t := by simpa using hf
      subst hu
      rw [mapGetName types n u hg]
      exact hn

/-- Counterexample to C4 as stated: the prioritizer configuration
(PrioritizerConfig: tokenBudget, debug) has no includeTransitiveDependencies
member, and tier-3 computation cannot be disabled: on Scenario A the
tier-3 candidate Part is classified into tier 3 and does not fall through
to tier 4 or tier 5. -/
theorem c4_counterexample :
    (assignTiers scenarioA).tier3 = [c7p] ∧
    c7p ∉ (assignTiers scenarioA).tier4 ∧
    c7p ∉ (assignTiers scenarioA).tier5 := by decide

/-- C4 amended: tier-3 computation is unconditional: assignTiers takes no
transitive-dependency switch, and a symbol classified into tier 3 never
appears in tier 4 or tier 5 (the filtering.includeTransitive flag of the
Config affects only the extractor's used-type filtering in checker.ts, not
this classifier). -/
theorem c4_tier3_unconditional (types : List ExtractedType)
    (t : ExtractedType) (ht : t ∈ (assignTiers types).tier3) :
    t ∉ (assignTiers types).tier4 ∧ t ∉ (assignTiers types).tier5 := by
  have hname : t.name ∈ tier3Names types := tier3OfName types t ht
  have hassigned : t.name ∈ assignedNames types := by
    unfold assignedNames
    exact List.mem_append_right _ hname
  have hct : (assignedNames types).contains t.name = true :=
    List.elem_iff.mpr hassigned
  constructor
  · intro h4
    have hfil := (List.mem_filter.mp h4).2
    simp only [Bool.and_eq_true] at hfil
    have hcon : (assignedNames types).contains t.name = false := by
      simpa using hfil.1.1
    rw [hct] at hcon
    simp at hcon
  · intro h5
    have hfil := (List.mem_filter.mp h5).2
    simp only [Bool.and_eq_true] at hfil
    have hcon : (assignedNames types).contains t.name = false := by
      simpa using hfil.1.1
    rw [hct] at hcon
    simp at hcon

/-- Witness for the amended C4 on Scenario A. -/
theorem c4_witness :
    c7p ∉ (assignTiers scenarioA).tier4 ∧ c7p ∉ (assignTiers scenarioA).tier5 :=
  c4_tier3_unconditional scenarioA c7p (by decide)

theorem resolveFuelZero (g : Nat → List Nat) (syms : Nat → List String)
    (maxDepth depth : Nat) (edges processed : List Nat) :
    resolveFuel g syms maxDepth 0 depth edges processed = ([], processed) := rfl

theorem resolveFuelNil (g : Nat → List Nat) (syms : Nat → List String)
    (maxDepth fuel depth : Nat) (processed : List Nat) :
    resolveFuel g syms maxDepth (fuel + 1) depth [] processed =
      ([], processed) := rfl

theorem resolveFuelCons (g : Nat → List Nat) (syms : Nat → List String)
    (maxDepth fuel depth : Nat) (t : Nat) (rest processed : List Nat) :
    resolveFuel g syms maxDepth (fuel + 1) depth (t :: rest) processed =
      if t ∈ processed then
        resolveFuel g syms maxDepth (fuel + 1) depth rest processed
      else
        let processed1 := processed ++ [t]
        let here := (syms t).map
          (fun n => { name := n, sourcePath := some t,
                      importDepth := some (depth + 1) : RSym })
        let nd :=
          if depth + 1 < maxDepth then
            resolveFuel g syms maxDepth fuel (depth + 1) (g t) processed1
          else ([], processed1)
        let tl := resolveFuel g syms maxDepth (fuel + 1) depth rest nd.2
        (here ++ nd.1 ++ tl.1, tl.2) := rfl

theorem resolveProcessedAppend (g : Nat → List Nat)
    (syms : Nat → List String) (maxDepth : Nat) :
    ∀ (fuel depth : Nat) (edges processed : List Nat),
      ∃ q, (resolveFuel g syms maxDepth fuel depth edges processed).2 =
        processed ++ q := by
  intro fuel
  induction fuel with
  | zero => intro depth edges p; exact ⟨[], by simp [resolveFuelZero]⟩
  | succ fuel ihf =>
    intro depth edges
    induction edges with
    | nil => intro p; exact ⟨[], by simp [resolveFuelNil]⟩
    | cons t rest ihe =>
      intro p
      rw [resolveFuelCons]
      by_cases hmem : t ∈ p
      · rw [if_pos hmem]
        exact ihe p
      · rw [if_neg hmem]
        dsimp only
        by_cases hlt : depth + 1 < maxDepth
        · rw [if_pos hlt]
          obtain ⟨q1, hq1⟩ := ihf (depth + 1) (g t) (p ++ [t])
          obtain ⟨q2, hq2⟩ := ihe
            ((resolveFuel g syms maxDepth fuel (depth + 1) (g t)
              (p ++ [t])).2)
          refine ⟨[t] ++ q1 ++ q2, ?_⟩
          dsimp only
          rw [hq2, hq1]
          simp
        · rw [if_neg hlt]
          obtain ⟨q2, hq2⟩ := ihe (p ++ [t])
          refine ⟨[t] ++ q2, ?_⟩
          dsimp only
          rw [hq2]
          simp

theorem resolveProcessedNodup (g : Nat → List Nat)
    (syms : Nat → List String) (maxDepth : Nat) :
    ∀ (fuel depth : Nat) (edges processed : List Nat), processed.Nodup →
      (resolveFuel g syms maxDepth fuel depth edges processed).2.Nodup := by
  intro fuel
  induction fuel with
  | zero => intro depth edges p hp; simpa [resolveFuelZero]
  | succ fuel ihf =>
    intro depth edges
    induction edges with
    | nil => intro p hp; simpa [resolveFuelNil]
    | cons t rest ihe =>
      intro p hp
      rw [resolveFuelCons]
      by_cases hmem : t ∈ p
      · rw [if_pos hmem]
        exact ihe p hp
      · rw [if_neg hmem]
        dsimp only
        have hp1 : (p ++ [t]).Nodup := by
          simp [List.nodup_append, hp, hmem]
        by_cases hlt : depth + 1 < maxDepth
        · rw [if_pos hlt]
          exact ihe _ (ihf (depth + 1) (g t) (p ++ [t]) hp1)
        · rw [if_neg hlt]
          exact ihe _ hp1

theorem resolveProcessedReach (g : Nat → List Nat)
    (syms : Nat → List String) (maxDepth entry : Nat) :
    ∀ (fuel depth : Nat) (edges processed : List Nat),
      depth < maxDepth →
      (∀ t ∈ edges, ReachesIn g entry t (depth + 1)) →
      ∀ f ∈ (resolveFuel g syms maxDepth fuel depth edges processed).2,
        f ∈ processed ∨
          ∃ j, ReachesIn g entry f j ∧ depth + 1 ≤ j ∧ j ≤ maxDepth := by
  intro fuel
  induction fuel with
  | zero =>
    intro depth edges p _ _ f hf
    rw [resolveFuelZero] at hf
    exact Or.inl hf
  | succ fuel ihf =>
    intro depth edges
    induction edges with
    | nil =>
      intro p _ _ f hf
      rw [resolveFuelNil] at hf
      exact Or.inl hf
    | cons t rest ihe =>
      intro p hd he f hf
      rw [resolveFuelCons] at hf
      by_cases hmem : t ∈ p
      · rw [if_pos hmem] at hf
        exact ihe p hd (fun x hx => he x (List.mem_cons_of_mem t hx)) f hf
      · rw [if_neg hmem] at hf
        dsimp only at hf
        have hreach : ReachesIn g entry t (depth + 1) :=
          he t (List.mem_cons_self t rest)
        by_cases hlt : depth + 1 < maxDepth
        · rw [if_pos hlt] at hf
          rcases ihe _ hd (fun x hx => he x (List.mem_cons_of_mem t hx))
            f hf with hin | hj
          · rcases ihf (depth + 1) (g t) (p ++ [t]) hlt
              (fun x hx => ReachesIn.step hreach hx) f hin with hin2 | hj2
            · rcases List.mem_append.mp hin2 with hin3 | hin3
              · exact Or.inl hin3
              · right
                refine ⟨depth + 1, ?_, le_rfl, hd⟩
                have : f = t := by simpa using hin3
                rw [this]
                exact hreach
            · obtain ⟨j, hj3, hj4, hj5⟩ := hj2
              exact Or.inr ⟨j, hj3, by omega, hj5⟩
          · exact Or.inr hj
        · rw [if_neg hlt] at hf
          rcases ihe _ hd (fun x hx => he x (List.mem_cons_of_mem t hx))
            f hf with hin | hj
          · rcases List.mem_append.mp hin with hin3 | hin3
            · exact Or.inl hin3
            · right
              refine ⟨depth + 1, ?_, le_rfl, hd⟩
              have : f = t := by simpa using hin3
              rw [this]
              exact hreach
          · exact Or.inr hj

theorem resolveSymsTagged (g : Nat → List Nat)
    (syms : Nat → List String) (maxDepth entry : Nat) :
    ∀ (fuel depth : Nat) (edges processed : List Nat),
      depth < maxDepth →
      (∀ t ∈ edges, ReachesIn g entry t (depth + 1)) →
      ∀ s ∈ (resolveFuel g syms maxDepth fuel depth edges processed).1,
        ∃ f d, s.sourcePath = some f ∧ s.importDepth = some d ∧
          s.name ∈ syms f ∧ ReachesIn g entry f d ∧ depth + 1 ≤ d ∧
          d ≤ maxDepth := by
  intro fuel
  induction fuel with
  | zero =>
    intro depth edges p _ _ s hs
    rw [resolveFuelZero] at hs
    simp at hs
  | succ fuel ihf =>
    intro depth edges
    induction edges with
    | nil =>
      intro p _ _ s hs
      rw [resolveFuelNil] at hs
      simp at hs
    | cons t rest ihe =>
      intro p hd he s hs
      rw [resolveFuelCons] at hs
      by_cases hmem : t ∈ p
      · rw [if_pos hmem] at hs
        exact ihe p hd (fun x hx => he x (List.mem_cons_of_mem t hx)) s hs
      · rw [if_neg hmem] at hs
        dsimp only at hs
        have hreach : ReachesIn g entry t (depth + 1) :=
          he t (List.mem_cons_self t rest)
        have hhere : ∀ s2 ∈ (syms t).map
            (fun n => { name := n, sourcePath := some t,
                        importDepth := some (depth + 1) : RSym }),
            ∃ f d, s2.sourcePath = some f ∧ s2.importDepth = some d ∧
              s2.name ∈ syms f ∧ ReachesIn g entry f d ∧ depth + 1 ≤ d ∧
              d ≤ maxDepth := by
          intro s2 hs2
          obtain ⟨n, hn, hn2⟩ := List.mem_map.mp hs2
          refine ⟨t, depth + 1, ?_, ?_, ?_, hreach, le_rfl, hd⟩
          · rw [← hn2]
          · rw [← hn2]
          · rw [← hn2]; exact hn
        by_cases hlt : depth + 1 < maxDepth
        · rw [if_pos hlt] at hs
          rcases List.mem_append.mp hs with hs2 | hs2
          · rcases List.mem_append.mp hs2 with hs3 | hs3
            · exact hhere s hs3
            · obtain ⟨f, d, h1, h2, h3, h4, h5, h6⟩ := ihf (depth + 1) (g t)
                (p ++ [t]) hlt (fun x hx => ReachesIn.step hreach hx) s hs3
              exact ⟨f, d, h1, h2, h3, h4, by omega, h6⟩
          · exact ihe _ hd (fun x hx => he x (List.mem_cons_of_mem t hx)) s hs2
        · rw [if_neg hlt] at hs
          rcases List.mem_append.mp hs with hs2 | hs2
          · rcases List.mem_append.mp hs2 with hs3 | hs3
            · exact hhere s hs3
            · simp at hs3
          · exact ihe _ hd (fun x hx => he x (List.mem_cons_of_mem t hx)) s hs2

theorem countTagged (syms : Nat → List String) (t : Nat) (depth : Nat)
    (f : Nat) :
    (((syms t).map
        (fun n => { name := n, sourcePath := some t,
                    importDepth := some (depth + 1) : RSym })).countP
      (fun s => s.sourcePath == some f)) =
      if t = f then (syms t).length else 0 := by
  rw [List.countP_map]
  by_cases heq : t = f
  · subst heq
    rw [if_pos rfl]
    exact List.countP_eq_length.mpr (fun a _ => by simp)
  · rw [if_neg heq]
    exact List.countP_eq_zero.mpr (fun a _ => by simp [heq])

theorem resolveCounts (g : Nat → List Nat) (syms : Nat → List String)
    (maxDepth : Nat) :
    ∀ (fuel depth : Nat) (edges processed : List Nat), processed.Nodup →
      ∀ f,
        ((resolveFuel g syms maxDepth fuel depth edges processed).1.countP
          (fun s => s.sourcePath == some f)) =
        if f ∈ (resolveFuel g syms maxDepth fuel depth edges processed).2 ∧
            f ∉ processed then (syms f).length else 0 := by
  intro fuel
  induction fuel with
  | zero =>
    intro depth edges p _ f
    rw [resolveFuelZero]
    rw [if_neg (by rintro ⟨h1, h2⟩; exact h2 h1)]
    rfl
  | succ fuel ihf =>
    intro depth edges
    induction edges with
    | nil =>
      intro p _ f
      rw [resolveFuelNil]
      rw [if_neg (by rintro ⟨h1, h2⟩; exact h2 h1)]
      rfl
    | cons t rest ihe =>
      intro p hp f
      rw [resolveFuelCons]
      by_cases hmem : t ∈ p
      · rw [if_pos hmem]
        exact ihe p hp f
      · rw [if_neg hmem]
        dsimp only
        have hp1 : (p ++ [t]).Nodup := by
          simp [List.nodup_append, hp, hmem]
        have htp1 : t ∈ p ++ [t] := by simp
        by_cases hlt : depth + 1 < maxDepth
        · rw [if_pos hlt]
          have hndn :
              (resolveFuel g syms maxDepth fuel (depth + 1) (g t)
                (p ++ [t])).2.Nodup :=
            resolveProcessedNodup g syms maxDepth fuel (depth + 1) (g t)
              (p ++ [t]) hp1
          obtain ⟨q1, hq1⟩ := resolveProcessedAppend g syms maxDepth fuel
            (depth + 1) (g t) (p ++ [t])
          obtain ⟨q2, hq2⟩ := resolveProcessedAppend g syms maxDepth
            (fuel + 1) depth rest
            (resolveFuel g syms maxDepth fuel (depth + 1) (g t) (p ++ [t])).2
          have hndcnt := ihf (depth + 1) (g t) (p ++ [t]) hp1 f
          have htlcnt := ihe
            (resolveFuel g syms maxDepth fuel (depth + 1) (g t) (p ++ [t])).2
            hndn f
          rw [List.countP_append, List.countP_append, countTagged, hndcnt,
            htlcnt]
          have hpnd : ∀ x, x ∈ p ++ [t] → x ∈
              (resolveFuel g syms maxDepth fuel (depth + 1) (g t)
                (p ++ [t])).2 := by
            intro x hx
            rw [hq1]
            exact List.mem_append_left _ hx
          have hndtl : ∀ x, x ∈
              (resolveFuel g syms maxDepth fuel (depth + 1) (g t)
                (p ++ [t])).2 → x ∈
              (resolveFuel g syms maxDepth (fuel + 1) depth rest
                (resolveFuel g syms maxDepth fuel (depth + 1) (g t)
                  (p ++ [t])).2).2 := by
            intro x hx
            rw [hq2]
            exact List.mem_append_left _ hx
          by_cases heq : t = f
          · subst heq
            rw [if_pos rfl]
            have h1 := hpnd t htp1
            have h2 := hndtl t h1
            rw [if_neg (by rintro ⟨_, hc⟩; exact hc htp1),
              if_neg (by rintro ⟨_, hc⟩; exact hc h1),
              if_pos ⟨h2, hmem⟩]
            omega
          · rw [if_neg heq]
            have hft : ¬f = t := fun h => heq h.symm
            have hf1 : f ∈ p ++ [t] ↔ f ∈ p := by
              simp [List.mem_append, hft]
            by_cases hfp : f ∈ p
            · have hfnd := hpnd f (by rw [hf1]; exact hfp)
              have hftl := hndtl f hfnd
              rw [if_neg (by rintro ⟨_, hc⟩; exact hc (hf1.mpr hfp)),
                if_neg (by rintro ⟨_, hc⟩; exact hc hfnd),
                if_neg (by rintro ⟨_, hc⟩; exact hc hfp)]
            · by_cases hfnd : f ∈
                  (resolveFuel g syms maxDepth fuel (depth + 1) (g t)
                    (p ++ [t])).2
              · have hftl := hndtl f hfnd
                rw [if_pos ⟨hfnd, fun hc => hfp (hf1.mp hc)⟩,
                  if_neg (by rintro ⟨_, hc⟩; exact hc hfnd),
                  if_pos ⟨hftl, hfp⟩]
                omega
              · rw [if_neg (by rintro ⟨hc, _⟩; exact hfnd hc)]
                by_cases hftl : f ∈
                    (resolveFuel g syms maxDepth (fuel + 1) depth rest
                      (resolveFuel g syms maxDepth fuel (depth + 1) (g t)
                        (p ++ [t])).2).2
                · rw [if_pos ⟨hftl, hfnd⟩, if_pos ⟨hftl, hfp⟩]
                  omega
                · rw [if_neg (by rintro ⟨hc, _⟩; exact hftl hc),
                    if_neg (by rintro ⟨hc, _⟩; exact hftl hc)]
        · rw [if_neg hlt]
          obtain ⟨q2, hq2⟩ := resolveProcessedAppend g syms maxDepth
            (fuel + 1) depth rest (p ++ [t])
          have htlcnt := ihe (p ++ [t]) hp1 f
          rw [List.countP_append, List.countP_append, countTagged, htlcnt]
          have hndtl : ∀ x, x ∈ p ++ [t] → x ∈
              (resolveFuel g syms maxDepth (fuel + 1) depth rest
                (p ++ [t])).2 := by
            intro x hx
            rw [hq2]
            exact List.mem_append_left _ hx
          by_cases heq : t = f
          · subst heq
            rw [if_pos rfl]
            have h2 := hndtl t htp1
            rw [if_neg (by rintro ⟨_, hc⟩; exact hc htp1),
              if_pos ⟨h2, hmem⟩]
            simp
          · rw [if_neg heq]
            have hft : ¬f = t := fun h => heq h.symm
            have hf1 : f ∈ p ++ [t] ↔ f ∈ p := by
              simp [List.mem_append, hft]
            by_cases hfp : f ∈ p
            · have hftl := hndtl f (by rw [hf1]; exact hfp)
              rw [if_neg (by rintro ⟨_, hc⟩; exact hc (hf1.mpr hfp)),
                if_neg (by rintro ⟨_, hc⟩; exact hc hfp)]
              simp
            · by_cases hftl : f ∈
                  (resolveFuel g syms maxDepth (fuel + 1) depth rest
                    (p ++ [t])).2
              · rw [if_pos ⟨hftl, fun hc => hfp (hf1.mp hc)⟩,
                  if_pos ⟨hftl, hfp⟩]
                simp
              · rw [if_neg (by rintro ⟨hc, _⟩; exact hftl hc),
                  if_neg (by rintro ⟨hc, _⟩; exact hftl hc)]
                simp

theorem resolveFuelCongr (g : Nat → List Nat) (syms : Nat → List String)
    (maxDepth : Nat) :
    ∀ (f1 f2 depth : Nat) (edges processed : List Nat),
      depth < maxDepth → maxDepth - depth ≤ f1 → maxDepth - depth ≤ f2 →
      resolveFuel g syms maxDepth f1 depth edges processed =
        resolveFuel g syms maxDepth f2 depth edges processed := by
  intro f1
  induction f1 with
  | zero =>
    intro f2 depth edges p hd h1 _
    omega
  | succ f1 ihf =>
    intro f2 depth edges
    cases f2 with
    | zero =>
      intro p hd _ h2
      omega
    | succ f2 =>
      induction edges with
      | nil => intro p _ _ _; rw [resolveFuelNil, resolveFuelNil]
      | cons t rest ihe =>
        intro p hd h1 h2
        rw [resolveFuelCons, resolveFuelCons]
        by_cases hmem : t ∈ p
        · rw [if_pos hmem, if_pos hmem]
          exact ihe p hd h1 h2
        · rw [if_neg hmem, if_neg hmem]
          dsimp only
          by_cases hlt : depth + 1 < maxDepth
          · rw [if_pos hlt, if_pos hlt]
            have hdeep := ihf f2 (depth + 1) (g t) (p ++ [t]) hlt
              (by omega) (by omega)
            rw [hdeep]
            have htail := ihe
              ((resolveFuel g syms maxDepth f2 (depth + 1) (g t)
                (p ++ [t])).2) hd h1 h2
            rw [htail]
          · rw [if_neg hlt, if_neg hlt]
            dsimp only
            have htail := ihe (p ++ [t]) hd h1 h2
            rw [htail]

theorem memReachList (g : Nat → List Nat) (entry : Nat) :
    ∀ (k : Nat) (a : Nat),
      a ∈ reachList g entry k ↔ ∃ j, j ≤ k ∧ ReachesIn g entry a j := by
  intro k
  induction k with
  | zero =>
    intro a
    unfold reachList
    simp only [Function.iterate_zero, id]
    constructor
    · intro h
      have : a = entry := by simpa using h
      exact ⟨0, le_rfl, by rw [this]; exact ReachesIn.refl entry⟩
    · rintro ⟨j, hj, hr⟩
      interval_cases j
      cases hr
      simp
  | succ k ih =>
    intro a
    unfold reachList
    rw [Function.iterate_succ_apply']
    unfold stepReach
    rw [List.mem_append]
    constructor
    · rintro (h | h)
      · obtain ⟨j, hj, hr⟩ := (ih a).mp h
        exact ⟨j, by omega, hr⟩
      · rw [List.mem_flatMap] at h
        obtain ⟨b, hb, hab⟩ := h
        obtain ⟨j, hj, hr⟩ := (ih b).mp hb
        exact ⟨j + 1, by omega, ReachesIn.step hr hab⟩
    · rintro ⟨j, hj, hr⟩
      cases hr with
      | refl =>
        left
        exact (ih entry).mpr ⟨0, by omega, ReachesIn.refl entry⟩
      | step hr2 hmem =>
        rename_i b j2
        by_cases hj2 : j2 + 1 ≤ k
        · left
          exact (ih a).mpr ⟨j2 + 1, hj2, ReachesIn.step hr2 hmem⟩
        · right
          rw [List.mem_flatMap]
          refine ⟨b, (ih b).mpr ⟨j2, by omega, hr2⟩, hmem⟩

/-- Counterexample to C2 as stated: on the seven-file graph cexGraph with
maxDepth 3, one resolution pass from file 0 ends with a processed set of
size 5, while 7 distinct files are reachable within 3 hops (files 5 and 6
are missed because file 3 is first marked at the depth cutoff through the
longer chain 0-1-2-3, and the direct edge 0-3 is then skipped as already
processed). -/
theorem c2_counterexample :
    (extractResolve cexGraph cexSyms 3 0).2.length = 5 ∧
    ((reachList cexGraph 0 3).dedup).length = 7 ∧
    (extractResolve cexGraph cexSyms 3 0).2.length ≠
      ((reachList cexGraph 0 3).dedup).length := by decide

/-- C2 amended: for every import graph, resolveImports seeded with the
entry file terminates (the result is independent of the structural fuel
once the fuel is at least maxDepth), never expands a file twice (the
processed set stays duplicate-free and each non-entry file's symbols are
collected exactly once if the file was processed and zero times
otherwise), and the processed set contains only files reachable within
maxDepth, so its size is AT MOST the number of distinct files reachable
within maxDepth; equality can fail (c2_counterexample). -/
theorem c2_resolution_no_revisit (g : Nat → List Nat)
    (syms : Nat → List String) (maxDepth entry : Nat) :
    (resolveImports g syms maxDepth entry 0 [entry]).2.Nodup ∧
    (∀ f ∈ (resolveImports g syms maxDepth entry 0 [entry]).2,
      ∃ j, j ≤ maxDepth ∧ ReachesIn g entry f j) ∧
    (resolveImports g syms maxDepth entry 0 [entry]).2.length ≤
      ((reachList g entry maxDepth).dedup).length ∧
    (∀ f, ((resolveImports g syms maxDepth entry 0 [entry]).1.countP
        (fun s => s.sourcePath == some f)) =
      if f ∈ (resolveImports g syms maxDepth entry 0 [entry]).2 ∧ f ≠ entry
      then (syms f).length else 0) ∧
    (∀ fuel, maxDepth ≤ fuel →
      (if maxDepth ≤ 0 then (([], [entry]) : List RSym × List Nat)
       else resolveFuel g syms maxDepth fuel 0 (g entry) [entry]) =
      resolveImports g syms maxDepth entry 0 [entry]) := by
  have hseed : ([entry] : List Nat).Nodup := by simp
  by_cases hmd : maxDepth ≤ 0
  · have hr : resolveImports g syms maxDepth entry 0 [entry] =
        ([], [entry]) := by
      unfold resolveImports
      rw [if_pos hmd]
    have hm0 : maxDepth = 0 := by omega
    refine ⟨?_, ?_, ?_, ?_, ?_⟩
    · rw [hr]; simp
    · rw [hr]
      intro f hf
      have : f = entry := by simpa using hf
      exact ⟨0, by omega, by rw [this]; exact ReachesIn.refl entry⟩
    · rw [hr, hm0]
      simp [reachList]
    · intro f
      rw [hr]
      rw [if_neg (by rintro ⟨h1, h2⟩; exact h2 (by simpa using h1))]
      rfl
    · intro fuel _
      rw [hr, if_pos hmd]
  · have hd0 : 0 < maxDepth := by omega
    have hedges : ∀ t ∈ g entry, ReachesIn g entry t (0 + 1) :=
      fun t ht => ReachesIn.step (ReachesIn.refl entry) ht
    have hr : resolveImports g syms maxDepth entry 0 [entry] =
        resolveFuel g syms maxDepth maxDepth 0 (g entry) [entry] := by
      unfold resolveImports
      rw [if_neg hmd, Nat.sub_zero]
    have hnodup : (resolveImports g syms maxDepth entry 0 [entry]).2.Nodup := by
      rw [hr]
      exact resolveProcessedNodup g syms maxDepth maxDepth 0 (g entry)
        [entry] hseed
    have hreach : ∀ f ∈ (resolveImports g syms maxDepth entry 0 [entry]).2,
        ∃ j, j ≤ maxDepth ∧ ReachesIn g entry f j := by
      rw [hr]
      intro f hf
      rcases resolveProcessedReach g syms maxDepth entry maxDepth 0 (g entry)
        [entry] hd0 hedges f hf with hin | ⟨j, hj1, _, hj3⟩
      · have : f = entry := by simpa using hin
        exact ⟨0, by omega, by rw [this]; exact ReachesIn.refl entry⟩
      · exact ⟨j, hj3, hj1⟩
    refine ⟨hnodup, hreach, ?_, ?_, ?_⟩
    · have hsub : (resolveImports g syms maxDepth entry 0 [entry]).2.toFinset ⊆
          ((reachList g entry maxDepth).dedup).toFinset := by
        intro x hx
        rw [List.mem_toFinset] at hx ⊢
        rw [List.mem_dedup]
        obtain ⟨j, hj, hrc⟩ := hreach x hx
        exact (memReachList g entry maxDepth x).mpr ⟨j, hj, hrc⟩
      have h1 := List.toFinset_card_of_nodup hnodup
      have h2 := List.toFinset_card_of_nodup
        (List.nodup_dedup (reachList g entry maxDepth))
      have h3 := Finset.card_le_card hsub
      omega
    · intro f
      have hc := resolveCounts g syms maxDepth maxDepth 0 (g entry) [entry]
        hseed f
      rw [hr]
      rw [hc]
      by_cases hfe : f = entry
      · rw [if_neg (by rintro ⟨_, h2⟩; exact h2 (by simp [hfe])),
          if_neg (by rintro ⟨_, h2⟩; exact h2 hfe)]
      · by_cases hfm : f ∈ (resolveFuel g syms maxDepth maxDepth 0 (g entry)
            [entry]).2
        · rw [if_pos ⟨hfm, by simp [hfe]⟩, if_pos ⟨hfm, hfe⟩]
        · rw [if_neg (by rintro ⟨h1, _⟩; exact hfm h1),
            if_neg (by rintro ⟨h1, _⟩; exact hfm h1)]
    · intro fuel hfuel
      rw [hr, if_neg hmd]
      exact resolveFuelCongr g syms maxDepth fuel maxDepth 0 (g entry)
        [entry] hd0 (by omega) (by omega)

/-- Witness for the amended C2 on the two-file chain. -/
theorem c2_witness :
    (resolveImports chainGraph chainSyms 3 10 0 [10]).2.Nodup ∧
    (resolveImports chainGraph chainSyms 3 10 0 [10]).2.length ≤
      ((reachList chainGraph 10 3).dedup).length :=
  ⟨(c2_resolution_no_revisit chainGraph chainSyms 3 10).1,
   (c2_resolution_no_revisit chainGraph chainSyms 3 10).2.2.1⟩

/-- C6: every symbol of one extract-and-resolve pass has importDepth
present iff sourcePath (originPath) is present; when present the depth d
satisfies 1 ≤ d ≤ maxDepth and equals the length of an import chain from
the entry file to the symbol's origin file (each hop adds exactly one). -/
theorem c6_import_depth_invariants (g : Nat → List Nat)
    (syms : Nat → List String) (maxDepth entry : Nat) (s : RSym)
    (hs : s ∈ (extractResolve g syms maxDepth entry).1) :
    (s.sourcePath.isSome ↔ s.importDepth.isSome) ∧
    (∀ f d, s.sourcePath = some f → s.importDepth = some d →
      1 ≤ d ∧ d ≤ maxDepth ∧ ReachesIn g entry f d) := by
  unfold extractResolve at hs
  dsimp only at hs
  rcases List.mem_append.mp hs with hloc | hres
  · obtain ⟨n, _, hn2⟩ := List.mem_map.mp hloc
    rw [← hn2]
    constructor
    · simp
    · intro f d hf _
      simp at hf
  · by_cases hmd : maxDepth ≤ 0
    · unfold resolveImports at hres
      rw [if_pos hmd] at hres
      simp at hres
    · unfold resolveImports at hres
      rw [if_neg hmd, Nat.sub_zero] at hres
      have hedges : ∀ t ∈ g entry, ReachesIn g entry t (0 + 1) :=
        fun t ht => ReachesIn.step (ReachesIn.refl entry) ht
      obtain ⟨f, d, h1, h2, _, h4, h5, h6⟩ := resolveSymsTagged g syms
        maxDepth entry maxDepth 0 (g entry) [entry] (by omega) hedges s hres
      constructor
      · rw [h1, h2]
        simp
      · intro f2 d2 hf2 hd2
        rw [h1] at hf2
        rw [h2] at hd2
        have hfe : f = f2 := by simpa using hf2
        have hde : d = d2 := by simpa using hd2
        rw [← hfe, ← hde]
        exact ⟨by omega, h6, h4⟩

/-- Witness for C6: in the two-file chain the resolved symbol of file 11
carries sourcePath 11 and importDepth 1, reached by a one-hop chain. -/
theorem c6_witness :
    1 ≤ 1 ∧ 1 ≤ 3 ∧ ReachesIn chainGraph 10 11 1 :=
  (c6_import_depth_invariants chainGraph chainSyms 3 10
    { name := "n", sourcePath := some 11, importDepth := some 1 }
    (by decide)).2 11 1 rfl rfl
